import Mathlib

/-!
Verification of the dsutils binning utilities: cutpoint generation
(histograms.numericVarCutpoints and binners.cutpoints), the number formatter
(humanReadableNum / human_readable_num), point-mass extraction, bin assembly
(_finalize_bins) and the DataFrame-level wrappers (cutter, binner, binner_df).

The python code computes with floats; the embedding idealises the arithmetic
over exact rationals.  The only operations with no exact rational meaning are
math.log(·, 10) and 10**· as used inside the 'log'/'logp1' strategies; the
embedding is parametric in those two real-valued functions (RealFns).  All
floor/round/order-of-magnitude computations are exact and executable.
-/

/-- Python exceptions surfaced by the library code. -/
inductive PyErr : Type
  | emptySample : PyErr          -- np.min / np.nanmin of an empty array
  | quantileRange : PyErr        -- np.quantile: quantiles must be in the range [0, 1]
  | invalidRange : PyErr         -- ValueError: variable range includes zero when using log
  | negLinspace : PyErr          -- np.linspace: number of samples must be non-negative
  | formatPrec : PyErr           -- negative precision in a percent-style format string
  | indexError : PyErr           -- list index out of range
  | valueError : PyErr           -- pandas: categorical categories must be unique
  | nameError : String → PyErr   -- unbound local/global name
  deriving DecidableEq, Repr

/-- Round to the nearest integer, ties to even: the rounding mode of np.round
and of float formatting. -/
def roundHalfEven (x : ℚ) : ℤ :=
  if x - (⌊x⌋ : ℚ) < 1/2 then ⌊x⌋
  else if 1/2 < x - (⌊x⌋ : ℚ) then ⌊x⌋ + 1
  else if 2 ∣ ⌊x⌋ then ⌊x⌋ else ⌊x⌋ + 1

/-- np.round(x, d); d may be negative (np.round(x, -1) rounds to tens). -/
def npRound (x : ℚ) (d : ℤ) : ℚ := (roundHalfEven (x * 10 ^ d) : ℚ) / 10 ^ d

/-- Decimal digit count of a natural number, fuel-bounded so the kernel can
evaluate it. -/
def digLenAux : ℕ → ℕ → ℕ
  | 0, _ => 0
  | fuel + 1, n => if n < 10 then 1 else digLenAux fuel (n / 10) + 1

def digLen (n : ℕ) : ℕ := digLenAux (n + 1) n

/-- Fuel-bounded scan for the least k at or above the start index with
1 ≤ x * 10 ^ k. -/
def ordNegAux : ℕ → ℕ → ℚ → ℕ
  | 0, k, _ => k
  | fuel + 1, k, x => if 1 ≤ x * 10 ^ k then k else ordNegAux fuel (k + 1) x

/-- int(np.floor(log_spcl(x))): floor of log10 of the absolute value, with the
special case 0 for x = 0.  This is binners._order_of_mag and the inlined
lb_ordOfMag / ub_ordOfMag / c_ordOfMag computations of histograms. -/
def order_of_mag (x : ℚ) : ℤ :=
  if x = 0 then 0
  else if 1 ≤ |x| then (digLen ⌊|x|⌋.toNat : ℤ) - 1
  else -(ordNegAux |x|.den 1 |x| : ℤ)

/-- One element of the rounding step
np.round(c / 10.0**c_ordOfMag, sigFig - 1) * 10.0**c_ordOfMag. -/
def roundSig (sig : ℤ) (x : ℚ) : ℚ :=
  npRound (x / 10 ^ order_of_mag x) (sig - 1) * 10 ^ order_of_mag x

/-- Lower-bound construction:
np.floor(lb * 10**(sigFig - 1 - ord)) / 10**(sigFig - 1 - ord). -/
def floorSig (sig : ℤ) (x : ℚ) : ℚ :=
  (⌊x * 10 ^ (sig - 1 - order_of_mag x)⌋ : ℚ) / 10 ^ (sig - 1 - order_of_mag x)

/-- Upper-bound construction, with np.ceil. -/
def ceilSig (sig : ℤ) (x : ℚ) : ℚ :=
  (⌈x * 10 ^ (sig - 1 - order_of_mag x)⌉ : ℚ) / 10 ^ (sig - 1 - order_of_mag x)

/-- np.min of a 1-D array (junk value 0 on the empty list; callers guard). -/
def listMin : List ℚ → ℚ
  | [] => 0
  | a :: t => t.foldl min a

/-- np.max of a 1-D array. -/
def listMax : List ℚ → ℚ
  | [] => 0
  | a :: t => t.foldl max a

/-- Insert into a strictly sorted list, dropping the element if present. -/
def insertUniq (a : ℚ) : List ℚ → List ℚ
  | [] => [a]
  | b :: t => if a < b then a :: b :: t else if a = b then b :: t else b :: insertUniq a t

/-- np.unique: the sorted list of distinct values. -/
def npUnique (l : List ℚ) : List ℚ := l.foldr insertUniq []

/-- Insert into a sorted list keeping duplicates. -/
def insertLe (a : ℚ) : List ℚ → List ℚ
  | [] => [a]
  | b :: t => if a ≤ b then a :: b :: t else b :: insertLe a t

/-- np.sort: ascending sort keeping duplicates. -/
def sortQ (l : List ℚ) : List ℚ := l.foldr insertLe []

/-- np.quantile with the default linear interpolation method. -/
def npQuantile (x : List ℚ) (q : ℚ) : Except PyErr ℚ :=
  if x = [] then .error .emptySample
  else if q < 0 ∨ 1 < q then .error .quantileRange
  else
    let s := sortQ x
    let pos := q * ((s.length : ℚ) - 1)
    let i := ⌊pos⌋.toNat
    let g := pos - (⌊pos⌋ : ℚ)
    .ok (s.getD i 0 + g * (s.getD (i + 1) 0 - s.getD i 0))

/-- np.linspace(a, b, num) with endpoint=True; errors on negative num. -/
def linspace (a b : ℚ) (num : ℤ) : Except PyErr (List ℚ) :=
  if num < 0 then .error .negLinspace
  else .ok ((List.range num.toNat).map fun i : ℕ => a + (i : ℚ) * (b - a) / ((num : ℚ) - 1))

/-- np.sign. -/
def npSign (x : ℚ) : ℚ := if x < 0 then -1 else if 0 < x then 1 else 0

/-- The accepted cuts argument: one of the four strategy strings, or the
explicit array of cut points. -/
inductive Cuts : Type
  | linear | log | logp1 | quantile
  | explicit (pts : List ℚ)
  deriving DecidableEq, Repr

/-- The two real-valued transcendental operations used by the log / logp1
branches (math.log(·, 10) and 10**·).  They have no exact rational
realisation, so the embedding takes them as parameters. -/
structure RealFns where
  log10 : ℚ → ℚ
  pow10 : ℚ → ℚ

/-- The digit character for a decimal digit. -/
def digitChar (d : ℕ) : Char := Char.ofNat (48 + d)

/-- Decimal digits of a natural number, most significant first (fuel-bounded). -/
def natStrAux : ℕ → ℕ → List Char
  | 0, _ => []
  | fuel + 1, n => if n < 10 then [digitChar n] else natStrAux fuel (n / 10) ++ [digitChar (n % 10)]

/-- str(n) for a non-negative int. -/
def natStr (n : ℕ) : String := ⟨natStrAux (n + 1) n⟩

/-- str(z) for an int. -/
def intStr (z : ℤ) : String := if z < 0 then "-" ++ natStr z.natAbs else natStr z.toNat

/-- s.zfill(w) for an unsigned digit string. -/
def zfill (w : ℕ) (s : String) : String := ⟨List.replicate (w - s.data.length) '0' ++ s.data⟩

/-- Fixed-point rendering of q with p decimal places (the happy path of a
percent-f format). -/
def pyFixedRaw (q : ℚ) (p : ℕ) : String :=
  let n := roundHalfEven (|q| * 10 ^ p)
  let ip := natStr (n / (10 : ℤ) ^ p).toNat
  let fp := zfill p (natStr (n % (10 : ℤ) ^ p).toNat)
  let core := if p = 0 then ip else ip ++ "." ++ fp
  if q < 0 then "-" ++ core else core

/-- A percent-f format with precision p applied to q; Python raises when the
precision written into the format string is negative. -/
def pyFixed (q : ℚ) (p : ℤ) : Except PyErr String :=
  if p < 0 then .error .formatPrec else .ok (pyFixedRaw q p.toNat)

/-- The unit suffixes of the large-number branch. -/
def unitsList : List String := ["", "K", "M", "G", "T", "P"]

/-- int(math.floor(math.log(|x|, 1000))): since floor(u/3) = floor(floor(u)/3),
this is the floor division of the base-10 order of magnitude by 3. -/
def mag1000 (x : ℚ) : ℤ := Int.fdiv (order_of_mag x) 3

/-- binners.human_readable_num = histograms.humanReadableNum (identical copies
in the two modules). -/
def human_readable_num (number : ℚ) (sig_fig : ℤ) : Except PyErr String :=
  if number = 0 then .ok "0"
  else if |number| < 1 then
    let magnitude := order_of_mag number
    if -2 ≤ magnitude then pyFixed number (sig_fig - 1 - magnitude)
    else do
      let s ← pyFixed (number / 10 ^ magnitude) (sig_fig - 1)
      .ok (s ++ "E" ++ intStr magnitude)
  else
    let magnitude := mag1000 number
    let final_num := number / 1000 ^ magnitude
    let unit := if 5 < magnitude then "E" ++ intStr (3 * magnitude)
                else unitsList.getD magnitude.toNat ""
    if |final_num| < 10 then do
      let s ← pyFixed final_num (sig_fig - 1)
      .ok (s ++ unit)
    else if |final_num| < 100 then do
      let s ← pyFixed final_num (sig_fig - 2)
      .ok (s ++ unit)
    else do
      let s ← pyFixed final_num (sig_fig - 3)
      .ok (s ++ unit)

/-- histograms.humanReadableNum (verbatim copy of the binners function). -/
def humanReadableNum (number : ℚ) (sigFig : ℤ) : Except PyErr String :=
  human_readable_num number sigFig

/-- The quantile-window block shared by the two generators: ep is either the
pair of sample quantiles or the rounded (lb, ub). -/
def epOf (x : List ℚ) (qntlCutoff : Option (ℚ × ℚ)) (lb ub : ℚ) : Except PyErr (ℚ × ℚ) :=
  match qntlCutoff with
  | some (lo, hi) => do
    let e0 ← npQuantile x lo
    let e1 ← npQuantile x hi
    .ok (e0, e1)
  | none => .ok (lb, ub)

/-- The Create-cut-points block of histograms.numericVarCutpoints (the log
branch errors when either endpoint equals zero). -/
def createCutsH (fns : RealFns) (x : List ℚ) (cuts : Cuts) (ncuts : ℤ) (ep : ℚ × ℚ) :
    Except PyErr (List ℚ) :=
  match cuts with
  | .linear => linspace ep.1 ep.2 ncuts
  | .log =>
    if ep.1 = 0 ∨ ep.2 = 0 then .error .invalidRange
    else do
      let e ← linspace (npSign ep.1 * fns.log10 |ep.1|) (npSign ep.2 * fns.log10 |ep.2|) ncuts
      .ok (e.map fns.pow10)
  | .logp1 => do
    let e ← linspace (npSign ep.1 * fns.log10 (|ep.1| + 1)) (npSign ep.2 * fns.log10 (|ep.2| + 1)) ncuts
    .ok (npUnique (0 :: e.map fns.pow10))
  | .quantile => do
    let qs ← linspace 0 1 ncuts
    qs.mapM (npQuantile x)
  | .explicit pts => .ok pts

/-- The Create-cut-points block of binners.cutpoints (the log branch errors
when the lower endpoint is at most zero). -/
def createCutsB (fns : RealFns) (x : List ℚ) (cuts : Cuts) (ncuts : ℤ) (ep : ℚ × ℚ) :
    Except PyErr (List ℚ) :=
  match cuts with
  | .linear => linspace ep.1 ep.2 ncuts
  | .log =>
    if ep.1 ≤ 0 then .error .invalidRange
    else do
      let e ← linspace (npSign ep.1 * fns.log10 |ep.1|) (npSign ep.2 * fns.log10 |ep.2|) ncuts
      .ok (e.map fns.pow10)
  | .logp1 => do
    let e ← linspace (npSign ep.1 * fns.log10 (|ep.1| + 1)) (npSign ep.2 * fns.log10 (|ep.2| + 1)) ncuts
    .ok (npUnique (0 :: e.map fns.pow10))
  | .quantile => do
    let qs ← linspace 0 1 ncuts
    qs.mapM (npQuantile x)
  | .explicit pts => .ok pts

/-- Add the far endpoints and round every value, deduplicating:
c = np.unique(np.append(np.append(lb, c), ub)) followed by
c_final = np.unique(np.round(c / 10.0**ord, sig - 1) * 10.0**ord). -/
def finalizeCuts (sig : ℤ) (lb ub : ℚ) (c : List ℚ) : List ℚ :=
  npUnique ((npUnique (lb :: (c ++ [ub]))).map (roundSig sig))

/-- histograms.numericVarCutpoints over exact rationals. -/
def numericVarCutpoints (fns : RealFns) (x : List ℚ) (qntlCutoff : Option (ℚ × ℚ))
    (cuts : Cuts) (ncuts : ℤ) (sigFig : ℤ) : Except PyErr (List ℚ × List String) :=
  if x = [] then .error .emptySample
  else do
    let lb := floorSig sigFig (listMin x)
    let ub := ceilSig sigFig (listMax x)
    let ep ← epOf x qntlCutoff lb ub
    let c ← createCutsH fns x cuts ncuts ep
    let c_final := finalizeCuts sigFig lb ub c
    let c_format ← c_final.mapM (fun i => humanReadableNum i sigFig)
    .ok (c_final, c_format)

/-- binners.cutpoints: identical pipeline except for the log-branch check and
no formatted output. -/
def cutpoints (fns : RealFns) (x : List ℚ) (qntl_cutoff : Option (ℚ × ℚ))
    (cuts : Cuts) (ncuts : ℤ) (sig_fig : ℤ) : Except PyErr (List ℚ) :=
  if x = [] then .error .emptySample
  else do
    let lb := floorSig sig_fig (listMin x)
    let ub := ceilSig sig_fig (listMax x)
    let ep ← epOf x qntl_cutoff lb ub
    let c ← createCutsB fns x cuts ncuts ep
    .ok (finalizeCuts sig_fig lb ub c)

/-- binners._point_mass: the distinct values of x with normalized frequency
strictly greater than the threshold, sorted ascending. -/
def point_mass (x : List ℚ) (threshold : ℚ) : List ℚ :=
  (npUnique x).filter (fun v => threshold < (x.count v : ℚ) / (x.length : ℚ))

/-- min(range(len(l)), key = lambda i: abs(l[i] - j)): the first index
achieving the minimal distance to j. -/
def minAbsIdx (l : List ℚ) (j : ℚ) : ℕ :=
  (List.range l.length).foldl
    (fun best i => if |l.getD i 0 - j| < |l.getD best 0 - j| then i else best) 0

/-- The removal indices of _finalize_bins: for each point mass, the interior
cutpoint (cps[1:-1]) nearest to it, shifted by one, then deduplicated. -/
def removalIdxs (cps : List ℚ) (pm : List ℚ) : List ℕ :=
  (pm.map (fun j => minAbsIdx ((cps.drop 1).dropLast) j + 1)).dedup

/-- Insertion into a descending-sorted list of indices. -/
def insertDesc (a : ℕ) : List ℕ → List ℕ
  | [] => [a]
  | b :: t => if b < a then a :: b :: t else b :: insertDesc a t

/-- sorted(l, reverse=True). -/
def sortDesc (l : List ℕ) : List ℕ := l.foldr insertDesc []

/-- Successive del l[i] for the listed indices. -/
def delIdxs {α : Type} (l : List α) (idxs : List ℕ) : List α :=
  idxs.foldl (fun acc i => acc.eraseIdx i) l

/-- Code-point lexicographic comparison of character lists (Python string
comparison). -/
def charListLe : List Char → List Char → Bool
  | [], _ => true
  | _ :: _, [] => false
  | a :: as, b :: bs => if a < b then true else if b < a then false else charListLe as bs

/-- Python tuple comparison on (float, str) pairs. -/
def pairLe (p q : ℚ × String) : Bool :=
  if p.1 < q.1 then true else if q.1 < p.1 then false else charListLe p.2.data q.2.data

def insertPair (a : ℚ × String) : List (ℚ × String) → List (ℚ × String)
  | [] => [a]
  | b :: t => if pairLe a b then a :: b :: t else b :: insertPair a t

/-- sorted(pairs) for (value, label) pairs. -/
def sortPairs (l : List (ℚ × String)) : List (ℚ × String) := l.foldr insertPair []

def insertStr (a : String) : List String → List String
  | [] => [a]
  | b :: t => if charListLe a.data b.data then a :: b :: t else b :: insertStr a t

/-- list.sort() on strings. -/
def sortStrs (l : List String) : List String := l.foldr insertStr []

/-- str(n).zfill(2) + ": " + content, the shape of every bin label. -/
def mkLabel (n : ℕ) (content : String) : String := zfill 2 (natStr n) ++ ": " ++ content

/-- The closing loop of _finalize_bins: walk the merged sorted (value, format)
pairs with position i and point-mass counter cntr, emitting the numbered
point-bin labels and range-bin labels. -/
def labelLoop (pm : List ℚ) : List (ℚ × String) → ℕ → ℕ → List String × List String
  | [], _, _ => ([], [])
  | (v, f) :: rest, i, cntr =>
    let pls0 : List String := if v ∈ pm then [mkLabel (i + cntr + 1) f] else []
    let cntr1 : ℕ := if v ∈ pm then cntr + 1 else cntr
    let bls0 : List String := match rest with
      | [] => []
      | (_, f2) :: _ => [mkLabel (i + cntr1 + 1) (f ++ " - " ++ f2)]
    let p := labelLoop pm rest (i + 1) cntr1
    (bls0 ++ p.1, pls0 ++ p.2)

/-- binners._finalize_bins.  The set(zip(...)) of the source deduplicates the
(value, format) pairs in arbitrary order; both output lists are re-sorted by
the pair order, so the embedding sorts the deduplicated pairs directly.
c_final and c_format are the two projections of the sorted pair list. -/
def finalize_bins (cps : List ℚ) (cps_format : List String)
    (pm : List ℚ) (pm_format : List String) : List ℚ × List String × List String :=
  let cps2 :=
    if 2 < cps.length then
      let ridx := sortDesc (removalIdxs cps pm)
      (delIdxs cps ridx, delIdxs cps_format ridx)
    else (cps, cps_format)
  let pairs := sortPairs (((cps2.1 ++ pm).zip (cps2.2 ++ pm_format)).dedup)
  let c_final := pairs.map Prod.fst
  let p := labelLoop pm pairs 0 0
  (c_final, p.1, p.2)

/-- pd.cut(values, bins, labels, include_lowest=True), one value: the label of
the half-open interval containing w, the first interval closed below. -/
def pdCutGo (w : ℚ) : List ℚ → List String → Bool → Option String
  | b0 :: b1 :: bs, l :: ls, first =>
    if (b0 < w ∨ (first ∧ w = b0)) ∧ w ≤ b1 then some l
    else pdCutGo w (b1 :: bs) ls false
  | _, _, _ => none

def pdCut (w : ℚ) (bins : List ℚ) (labels : List String) : Option String :=
  pdCutGo w bins labels true

/-- binners.cutter on a column xs with no missing values.  The forwarded
kwargs reach cutpoints, whose sig_fig keeps its default 3 (cutter's own
sig_fig parameter is not forwarded); cutter's sig_fig is used for all the
formatted labels.  Returns the per-row labels and the sorted category list. -/
def cutter (fns : RealFns) (xs : List ℚ) (max_levels : ℤ) (point_mass_threshold : ℚ)
    (sig_fig : ℤ) (qntl_cutoff : Option (ℚ × ℚ)) (cuts : Cuts) :
    Except PyErr (List (Option String) × List String) := do
  let pm := point_mass xs point_mass_threshold
  let cf ←
    if pm = [] then do
      let cps ← cutpoints fns xs qntl_cutoff cuts max_levels 3
      let f ← cps.mapM (fun i => human_readable_num i sig_fig)
      pure (cps, f)
    else do
      let rem := xs.filter (fun w => w ∉ pm)
      if rem = [] then pure (([] : List ℚ), ([] : List String))
      else do
        let cps ← cutpoints fns rem qntl_cutoff cuts max_levels 3
        let f ← cps.mapM (fun i => human_readable_num i sig_fig)
        pure (cps, f)
  let pm_format ← pm.mapM (fun i => human_readable_num i sig_fig)
  let fb := finalize_bins cf.1 cf.2 pm pm_format
  let rows ← xs.mapM (fun w =>
    if w ∈ pm then
      match fb.2.2.get? (pm.indexOf w) with
      | some l => pure (some l)
      | none => Except.error PyErr.indexError
    else pure (pdCut w fb.1 fb.2.1))
  if (fb.2.1 ++ fb.2.2).Nodup then
    .ok (rows, sortStrs (fb.2.1 ++ fb.2.2))
  else .error .valueError

/-- histograms.cutter: builds pairwise range labels from the formatted
cutpoints and buckets the rows; its max_levels parameter is not used in the
body (numericVarCutpoints receives only the forwarded kwargs). -/
def cutterH (fns : RealFns) (xs : List ℚ) (max_levels : ℤ) (qntlCutoff : Option (ℚ × ℚ))
    (cuts : Cuts) (ncuts : ℤ) (sigFig : ℤ) : Except PyErr (List (Option String)) := do
  let f ← numericVarCutpoints fns xs qntlCutoff cuts ncuts sigFig
  let labels := (List.range (f.2.length - 1)).map
    (fun i => mkLabel (i + 1) (f.2.getD i "" ++ " - " ++ f.2.getD (i + 1) ""))
  .ok (xs.map (fun w => pdCut w f.1 labels))

/-- histograms.binner.  After the binned column is computed, the branch
`if fill_na is not None` reads the name fill_na, which is bound nowhere, so
evaluation raises NameError regardless of the fill_nan argument. -/
def binner (fns : RealFns) (xs : List ℚ) (fill_nan : Option String) (max_levels : ℤ)
    (qntlCutoff : Option (ℚ × ℚ)) (cuts : Cuts) (ncuts : ℤ) (sigFig : ℤ) :
    Except PyErr (List (Option String)) := do
  let _ ← cutterH fns xs max_levels qntlCutoff cuts ncuts sigFig
  .error (.nameError "fill_na")

/-- binners.binner_df: the same unbound-name branch after calling
binners.cutter. -/
def binner_df (fns : RealFns) (xs : List ℚ) (fill_nan : Option String) (max_levels : ℤ)
    (point_mass_threshold : ℚ) (sig_fig : ℤ) (qntl_cutoff : Option (ℚ × ℚ)) (cuts : Cuts) :
    Except PyErr (List (Option String) × List String) := do
  let _ ← cutter fns xs max_levels point_mass_threshold sig_fig qntl_cutoff cuts
  .error (.nameError "fill_na")

/-- The count of digit characters immediately after the decimal point. -/
def decimalsOf (s : String) : ℕ :=
  (((s.data.dropWhile (fun c => !(c == '.'))).drop 1).takeWhile Char.isDigit).length

/-- Parse a digit string back into a natural number. -/
def parseDigits (l : List Char) : ℕ := l.foldl (fun a c => 10 * a + (c.toNat - 48)) 0

/-- The ordinal prefix of a bin label: the digits before the first colon. -/
def ordOf (s : String) : ℕ := parseDigits (s.data.takeWhile (fun c => !(c == ':')))

/-! ### Lemma layer -/

/-! Basic lemmas about roundHalfEven. -/

theorem roundHalfEven_intCast (n : ℤ) : roundHalfEven (n : ℚ) = n := by
  simp [roundHalfEven]

theorem floor_le_roundHalfEven (x : ℚ) : ⌊x⌋ ≤ roundHalfEven x := by
  unfold roundHalfEven
  split_ifs <;> omega

theorem roundHalfEven_le_floor_add_one (x : ℚ) : roundHalfEven x ≤ ⌊x⌋ + 1 := by
  unfold roundHalfEven
  split_ifs <;> omega

theorem roundHalfEven_mono {x y : ℚ} (h : x ≤ y) : roundHalfEven x ≤ roundHalfEven y := by
  rcases lt_or_eq_of_le (Int.floor_mono h) with hf | hf
  · calc roundHalfEven x ≤ ⌊x⌋ + 1 := roundHalfEven_le_floor_add_one x
      _ ≤ ⌊y⌋ := by omega
      _ ≤ roundHalfEven y := floor_le_roundHalfEven y
  · have hxy : x - (⌊x⌋ : ℚ) ≤ y - (⌊y⌋ : ℚ) := by
      rw [hf]; linarith
    unfold roundHalfEven
    rw [hf]
    split_ifs with h1 h2 h3 h4 h5 h6 h7 h8 h9 h10 h11 <;> first
      | omega
      | (exfalso; linarith)

/-! digLen and order_of_mag bounds. -/

theorem digLenAux_bounds : ∀ fuel n, n < fuel → 1 ≤ n →
    10 ^ (digLenAux fuel n - 1) ≤ n ∧ n < 10 ^ digLenAux fuel n := by
  intro fuel
  induction fuel with
  | zero => omega
  | succ fuel ih =>
    intro n hn h1
    by_cases h10 : n < 10
    · simp [digLenAux, h10]
      omega
    · have hdiv : n / 10 < fuel := by
        have : n / 10 < n := Nat.div_lt_self (by omega) (by omega)
        omega
      have h1' : 1 ≤ n / 10 := by
        have := Nat.div_le_div_right (c := 10) (le_of_not_lt h10)
        simpa using this
      obtain ⟨hlo, hhi⟩ := ih (n / 10) hdiv h1'
      have hres : digLenAux (fuel + 1) n = digLenAux fuel (n / 10) + 1 := by
        simp [digLenAux, h10]
      rw [hres]
      constructor
      · have : 10 ^ (digLenAux fuel (n / 10) - 1) * 10 ≤ (n / 10) * 10 :=
          Nat.mul_le_mul_right 10 hlo
        have h2 : (n / 10) * 10 ≤ n := Nat.div_mul_le_self n 10
        have hd1 : 1 ≤ digLenAux fuel (n / 10) := by
          by_contra hc
          have : digLenAux fuel (n / 10) = 0 := by omega
          rw [this] at hhi
          simp at hhi
          omega
        have hexp : digLenAux fuel (n / 10) + 1 - 1 = (digLenAux fuel (n / 10) - 1) + 1 := by omega
        rw [hexp, pow_succ]
        omega
      · have h3 : n < (n / 10 + 1) * 10 := by
          have h5 := Nat.mod_lt n (y := 10) (by omega)
          have h6 := Nat.div_add_mod n 10
          omega
        have h4 : (n / 10 + 1) * 10 ≤ 10 ^ digLenAux fuel (n / 10) * 10 := by
          have : n / 10 + 1 ≤ 10 ^ digLenAux fuel (n / 10) := by omega
          exact Nat.mul_le_mul_right 10 this
        rw [pow_succ]
        omega

theorem digLen_bounds {n : ℕ} (h1 : 1 ≤ n) :
    10 ^ (digLen n - 1) ≤ n ∧ n < 10 ^ digLen n :=
  digLenAux_bounds (n + 1) n (by omega) h1

theorem digLen_pos (n : ℕ) : 1 ≤ digLen (n + 1) := by
  have := (digLen_bounds (n := n + 1) (by omega)).2
  by_contra hc
  have h0 : digLen (n + 1) = 0 := by omega
  rw [h0] at this
  simp at this

theorem ordNegAux_spec : ∀ fuel k0 (x : ℚ),
    (∃ j, k0 ≤ j ∧ j < k0 + fuel ∧ 1 ≤ x * 10 ^ j) →
    1 ≤ x * 10 ^ ordNegAux fuel k0 x ∧
      ∀ j, k0 ≤ j → j < ordNegAux fuel k0 x → ¬(1 ≤ x * 10 ^ j) := by
  intro fuel
  induction fuel with
  | zero => intro k0 x ⟨j, hj1, hj2, _⟩; omega
  | succ fuel ih =>
    intro k0 x hex
    by_cases hc : 1 ≤ x * 10 ^ k0
    · simp only [ordNegAux, if_pos hc]
      exact ⟨hc, by omega⟩
    · simp only [ordNegAux, if_neg hc]
      have hex' : ∃ j, k0 + 1 ≤ j ∧ j < (k0 + 1) + fuel ∧ 1 ≤ x * 10 ^ j := by
        obtain ⟨j, hj1, hj2, hj3⟩ := hex
        refine ⟨j, ?_, by omega, hj3⟩
        rcases Nat.eq_or_lt_of_le hj1 with h | h
        · exact absurd (h ▸ hj3) hc
        · omega
      obtain ⟨h1, h2⟩ := ih (k0 + 1) x hex'
      refine ⟨h1, fun j hj1 hj2 => ?_⟩
      rcases Nat.eq_or_lt_of_le hj1 with h | h
      · exact h ▸ hc
      · exact h2 j h hj2

theorem order_of_mag_zero : order_of_mag 0 = 0 := by simp [order_of_mag]

theorem ordNegAux_ge : ∀ fuel k0 (x : ℚ), k0 ≤ ordNegAux fuel k0 x := by
  intro fuel
  induction fuel with
  | zero => intro k0 x; simp [ordNegAux]
  | succ fuel ih =>
    intro k0 x
    simp only [ordNegAux]
    split_ifs
    · omega
    · exact le_trans (by omega) (ih (k0 + 1) x)

theorem order_of_mag_bounds {x : ℚ} (hx : x ≠ 0) :
    (10 : ℚ) ^ order_of_mag x ≤ |x| ∧ |x| < 10 ^ (order_of_mag x + 1) := by
  have habs : (0 : ℚ) < |x| := abs_pos.mpr hx
  by_cases hge : 1 ≤ |x|
  · have hres : order_of_mag x = (digLen ⌊|x|⌋.toNat : ℤ) - 1 := by
      simp [order_of_mag, hx, hge]
    have hfl1 : (1 : ℤ) ≤ ⌊|x|⌋ := Int.le_floor.mpr (by exact_mod_cast hge)
    set n := ⌊|x|⌋.toNat with hn
    have hn1 : 1 ≤ n := by omega
    have hcast : (n : ℤ) = ⌊|x|⌋ := Int.toNat_of_nonneg (by omega)
    obtain ⟨hlo, hhi⟩ := digLen_bounds hn1
    have hd1 : 1 ≤ digLen n := by
      by_contra hc
      have h0 : digLen n = 0 := by omega
      rw [h0] at hhi; simp at hhi; omega
    have hnle : (n : ℚ) ≤ |x| := by
      have := Int.floor_le |x|
      rw [← hcast] at this
      exact_mod_cast this
    have hltn : |x| < (n : ℚ) + 1 := by
      have := Int.lt_floor_add_one |x|
      rw [← hcast] at this
      exact_mod_cast this
    constructor
    · rw [hres]
      have h1 : ((10 : ℚ) ^ (digLen n - 1 : ℕ)) ≤ (n : ℚ) := by exact_mod_cast hlo
      have h2 : ((digLen n : ℤ) - 1) = ((digLen n - 1 : ℕ) : ℤ) := by omega
      rw [h2, zpow_natCast]
      exact le_trans h1 hnle
    · rw [hres]
      have h1 : (n : ℚ) + 1 ≤ (10 : ℚ) ^ digLen n := by exact_mod_cast hhi
      have h2 : ((digLen n : ℤ) - 1 + 1) = ((digLen n : ℕ) : ℤ) := by omega
      rw [h2, zpow_natCast]
      exact lt_of_lt_of_le hltn h1
  · have hlt1 : |x| < 1 := lt_of_not_le hge
    have hres : order_of_mag x = -(ordNegAux |x|.den 1 |x| : ℤ) := by
      simp [order_of_mag, hx, hge]
    have hden : 1 ≤ |x|.den := |x|.den_pos
    have hnum : 1 ≤ |x|.num := Rat.num_pos.mpr habs
    have hdpos : (0 : ℚ) < (|x|.den : ℚ) := by exact_mod_cast |x|.den_pos
    have hxden : 1 / (|x|.den : ℚ) ≤ |x| := by
      have hle : (1 : ℚ) ≤ (|x|.num : ℚ) := by exact_mod_cast hnum
      calc 1 / (|x|.den : ℚ) ≤ (|x|.num : ℚ) / (|x|.den : ℚ) :=
            (div_le_div_right hdpos).mpr hle
        _ = |x| := Rat.num_div_den |x|
    have hcond : 1 ≤ |x| * 10 ^ (|x|.den) := by
      have hpow : ((|x|.den : ℚ)) ≤ 10 ^ (|x|.den) := by
        have := Nat.lt_pow_self (show 1 < 10 by omega) |x|.den
        exact_mod_cast this.le
      calc (1 : ℚ) = (|x|.den : ℚ) / (|x|.den : ℚ) := by field_simp
        _ ≤ 10 ^ (|x|.den) / (|x|.den : ℚ) := (div_le_div_right hdpos).mpr hpow
        _ = (1 / (|x|.den : ℚ)) * 10 ^ (|x|.den) := by ring
        _ ≤ |x| * 10 ^ (|x|.den) := by
            apply mul_le_mul_of_nonneg_right hxden
            positivity
    obtain ⟨hk, hmin⟩ := ordNegAux_spec |x|.den 1 |x| ⟨|x|.den, hden, by omega, hcond⟩
    set k := ordNegAux |x|.den 1 |x| with hkdef
    have hk1 : 1 ≤ k := ordNegAux_ge _ 1 _
    have hpowk : (0 : ℚ) < 10 ^ k := by positivity
    constructor
    · rw [hres]
      have h1 : 1 / (10 : ℚ) ^ k ≤ |x| := (div_le_iff hpowk).mpr (by linarith)
      have h2 : (10 : ℚ) ^ (-(k : ℤ)) = 1 / (10 : ℚ) ^ k := by
        rw [zpow_neg, zpow_natCast, one_div]
      rw [h2]
      exact h1
    · rw [hres]
      rcases Nat.eq_or_lt_of_le hk1 with h1 | h2
    
      · have : -(k : ℤ) + 1 = 0 := by omega
        rw [this, zpow_zero]
        exact hlt1
      · have hm := hmin (k - 1) (by omega) (by omega)
        have hlt : |x| * 10 ^ (k - 1) < 1 := lt_of_not_le hm
        have hpow1 : (0 : ℚ) < 10 ^ (k - 1) := by positivity
        have h3 : |x| < 1 / 10 ^ (k - 1) := (lt_div_iff hpow1).mpr hlt
        have h4 : (10 : ℚ) ^ (-(k : ℤ) + 1) = 1 / (10 : ℚ) ^ (k - 1) := by
          have : (-(k : ℤ) + 1) = -((k - 1 : ℕ) : ℤ) := by omega
          rw [this, zpow_neg, zpow_natCast, one_div]
        rw [h4]
        exact h3

theorem order_of_mag_unique {y : ℚ} {e e' : ℤ} (h0 : (10 : ℚ) ^ e ≤ y)
    (h1 : y < 10 ^ (e + 1)) (h2 : (10 : ℚ) ^ e' ≤ y) (h3 : y < 10 ^ (e' + 1)) : e = e' := by
  by_contra h
  rcases lt_or_gt_of_ne h with hlt | hlt
  · have : (10 : ℚ) ^ (e + 1) ≤ 10 ^ e' := zpow_le_zpow_right₀ (by norm_num) (by omega)
    linarith
  · have : (10 : ℚ) ^ (e' + 1) ≤ 10 ^ e := zpow_le_zpow_right₀ (by norm_num) (by omega)
    linarith

theorem order_of_mag_eq_of_bounds {x : ℚ} {e : ℤ} (hx : x ≠ 0)
    (h1 : (10 : ℚ) ^ e ≤ |x|) (h2 : |x| < 10 ^ (e + 1)) : order_of_mag x = e :=
  order_of_mag_unique (order_of_mag_bounds hx).1 (order_of_mag_bounds hx).2 h1 h2

theorem order_of_mag_le_of_le {x y : ℚ} (hx : 0 < x) (hxy : x ≤ y) :
    order_of_mag x ≤ order_of_mag y := by
  have hy : 0 < y := lt_of_lt_of_le hx hxy
  by_contra hc
  have h1 : order_of_mag y + 1 ≤ order_of_mag x := by omega
  have h2 := (order_of_mag_bounds (ne_of_gt hy)).2
  have h3 := (order_of_mag_bounds (ne_of_gt hx)).1
  have h4 : (10 : ℚ) ^ (order_of_mag y + 1) ≤ 10 ^ order_of_mag x :=
    zpow_le_zpow_right₀ (by norm_num) h1
  rw [abs_of_pos hx] at h3
  rw [abs_of_pos hy] at h2
  linarith

theorem order_of_mag_neg (x : ℚ) : order_of_mag (-x) = order_of_mag x := by
  simp [order_of_mag, abs_neg, neg_eq_zero]

theorem npRound_mono {x y : ℚ} (d : ℤ) (h : x ≤ y) : npRound x d ≤ npRound y d := by
  unfold npRound
  have hp : (0 : ℚ) < 10 ^ d := zpow_pos (by norm_num) d
  have h1 : x * 10 ^ d ≤ y * 10 ^ d := mul_le_mul_of_nonneg_right h hp.le
  have h2 : ((roundHalfEven (x * 10 ^ d) : ℤ) : ℚ) ≤ ((roundHalfEven (y * 10 ^ d) : ℤ) : ℚ) := by
    exact_mod_cast roundHalfEven_mono h1
  exact (div_le_div_right hp).mpr h2

theorem npRound_eq_self {x : ℚ} {d : ℤ} (h : ∃ k : ℤ, x * 10 ^ d = (k : ℚ)) :
    npRound x d = x := by
  obtain ⟨k, hk⟩ := h
  have hp : (0 : ℚ) < 10 ^ d := zpow_pos (by norm_num) d
  unfold npRound
  rw [hk, roundHalfEven_intCast, ← hk]
  exact mul_div_cancel_right₀ x (ne_of_gt hp)

theorem zpow_toNat_cast {d : ℤ} (hd : 0 ≤ d) :
    (10 : ℚ) ^ d = (((10 : ℤ) ^ d.toNat : ℤ) : ℚ) := by
  push_cast
  rw [← zpow_natCast (10 : ℚ) d.toNat, Int.toNat_of_nonneg hd]

theorem zpow_toNat_q {d : ℤ} (hd : 0 ≤ d) : (10 : ℚ) ^ d.toNat = (10 : ℚ) ^ d := by
  rw [← zpow_natCast (10 : ℚ) d.toNat, Int.toNat_of_nonneg hd]

theorem roundSig_zero (s : ℤ) : roundSig s 0 = 0 := by
  have h : npRound 0 (s - 1) = 0 := by
    have := npRound_eq_self (x := 0) (d := s - 1) ⟨0, by push_cast; ring⟩
    simpa using this
  simp [roundSig, h]

theorem roundSig_pos_bounds {s : ℤ} (hs : 1 ≤ s) {x : ℚ} (hx : 0 < x) :
    (10 : ℚ) ^ order_of_mag x ≤ roundSig s x ∧ roundSig s x ≤ 10 ^ (order_of_mag x + 1) := by
  obtain ⟨hlo, hhi⟩ := order_of_mag_bounds (ne_of_gt hx)
  rw [abs_of_pos hx] at hlo hhi
  set e := order_of_mag x with he
  have hpe : (0 : ℚ) < 10 ^ e := zpow_pos (by norm_num) e
  have hm1 : 1 ≤ x / 10 ^ e := (one_le_div hpe).mpr hlo
  have hm10 : x / 10 ^ e ≤ 10 := by
    rw [div_le_iff hpe]
    calc x ≤ 10 ^ (e + 1) := hhi.le
      _ = 10 * 10 ^ e := by
          rw [zpow_add₀ (by norm_num : (10 : ℚ) ≠ 0)]; ring
  have hfix1 : npRound 1 (s - 1) = 1 :=
    npRound_eq_self ⟨(10 : ℤ) ^ (s - 1).toNat, by rw [one_mul, zpow_toNat_cast (by omega)]⟩
  have hfix10 : npRound 10 (s - 1) = 10 := by
    apply npRound_eq_self
    refine ⟨(10 : ℤ) ^ s.toNat, ?_⟩
    have h1 : (10 : ℚ) * 10 ^ (s - 1) = 10 ^ s := by
      rw [mul_comm, ← zpow_add_one₀ (by norm_num : (10 : ℚ) ≠ 0)]
      norm_num
    rw [h1, zpow_toNat_cast (by omega)]
  have hRlo : (1 : ℚ) ≤ npRound (x / 10 ^ e) (s - 1) := by
    have h2 := npRound_mono (s - 1) hm1
    rwa [hfix1] at h2
  have hRhi : npRound (x / 10 ^ e) (s - 1) ≤ 10 := by
    have h2 := npRound_mono (s - 1) hm10
    rwa [hfix10] at h2
  constructor
  · calc (10 : ℚ) ^ e = 1 * 10 ^ e := by ring
      _ ≤ npRound (x / 10 ^ e) (s - 1) * 10 ^ e := by
          exact mul_le_mul_of_nonneg_right hRlo hpe.le
  · calc npRound (x / 10 ^ e) (s - 1) * 10 ^ e ≤ 10 * 10 ^ e := by
          exact mul_le_mul_of_nonneg_right hRhi hpe.le
      _ = 10 ^ (e + 1) := by
          rw [zpow_add₀ (by norm_num : (10 : ℚ) ≠ 0)]; ring

theorem roundSig_neg_bounds {s : ℤ} (hs : 1 ≤ s) {x : ℚ} (hx : x < 0) :
    -(10 : ℚ) ^ (order_of_mag x + 1) ≤ roundSig s x ∧ roundSig s x ≤ -(10 : ℚ) ^ order_of_mag x := by
  obtain ⟨hlo, hhi⟩ := order_of_mag_bounds (ne_of_lt hx)
  rw [abs_of_neg hx] at hlo hhi
  set e := order_of_mag x with he
  have hpe : (0 : ℚ) < 10 ^ e := zpow_pos (by norm_num) e
  have hm1 : x / 10 ^ e ≤ -1 := by
    rw [div_le_iff hpe]
    linarith
  have hm10 : -10 ≤ x / 10 ^ e := by
    rw [le_div_iff hpe]
    have h1 : (10 : ℚ) ^ (e + 1) = 10 * 10 ^ e := by
      rw [zpow_add₀ (by norm_num : (10 : ℚ) ≠ 0)]; ring
    nlinarith [hhi, h1]
  have hfixm1 : npRound (-1) (s - 1) = -1 :=
    npRound_eq_self ⟨-(10 : ℤ) ^ (s - 1).toNat, by
      rw [zpow_toNat_cast (show (0:ℤ) ≤ s - 1 by omega)]; push_cast; ring⟩
  have hfixm10 : npRound (-10) (s - 1) = -10 := by
    apply npRound_eq_self
    refine ⟨-(10 : ℤ) ^ s.toNat, ?_⟩
    have h1 : (-10 : ℚ) * 10 ^ (s - 1) = -(10 ^ s) := by
      rw [show (-10 : ℚ) * 10 ^ (s-1) = -(10 ^ (s-1) * 10) by ring,
        ← zpow_add_one₀ (by norm_num : (10 : ℚ) ≠ 0)]
      norm_num
    rw [h1, zpow_toNat_cast (by omega)]
    push_cast; ring
  have hRhi : npRound (x / 10 ^ e) (s - 1) ≤ -1 := by
    have h2 := npRound_mono (s - 1) hm1
    rwa [hfixm1] at h2
  have hRlo : (-10 : ℚ) ≤ npRound (x / 10 ^ e) (s - 1) := by
    have h2 := npRound_mono (s - 1) hm10
    rwa [hfixm10] at h2
  constructor
  · calc -(10 : ℚ) ^ (e + 1) = -10 * 10 ^ e := by
          rw [zpow_add₀ (by norm_num : (10 : ℚ) ≠ 0)]; ring
      _ ≤ npRound (x / 10 ^ e) (s - 1) * 10 ^ e := by
          exact mul_le_mul_of_nonneg_right hRlo hpe.le
  · calc npRound (x / 10 ^ e) (s - 1) * 10 ^ e ≤ -1 * 10 ^ e := by
          exact mul_le_mul_of_nonneg_right hRhi hpe.le
      _ = -(10 : ℚ) ^ e := by ring

theorem roundSig_pos {s : ℤ} (hs : 1 ≤ s) {x : ℚ} (hx : 0 < x) : 0 < roundSig s x :=
  lt_of_lt_of_le (zpow_pos (by norm_num) _) (roundSig_pos_bounds hs hx).1

theorem roundSig_neg {s : ℤ} (hs : 1 ≤ s) {x : ℚ} (hx : x < 0) : roundSig s x < 0 :=
  lt_of_le_of_lt (roundSig_neg_bounds hs hx).2 (by
    have : (0:ℚ) < 10 ^ order_of_mag x := zpow_pos (by norm_num) _
    linarith)

theorem roundSig_nonneg {s : ℤ} (hs : 1 ≤ s) {x : ℚ} (hx : 0 ≤ x) : 0 ≤ roundSig s x := by
  rcases eq_or_lt_of_le hx with h | h
  · rw [← h, roundSig_zero]
  · exact (roundSig_pos hs h).le

theorem roundSig_mono {s : ℤ} (hs : 1 ≤ s) {x y : ℚ} (h : x ≤ y) :
    roundSig s x ≤ roundSig s y := by
  rcases lt_trichotomy x 0 with hx | hx | hx
  · rcases lt_trichotomy y 0 with hy | hy | hy
    · have hyx : -y ≤ -x := by linarith
      have hord : order_of_mag y ≤ order_of_mag x := by
        have := order_of_mag_le_of_le (x := -y) (y := -x) (by linarith) hyx
        rwa [order_of_mag_neg, order_of_mag_neg] at this
      rcases eq_or_lt_of_le hord with heq | hlt
      · unfold roundSig
        rw [← heq]
        have hpe : (0 : ℚ) < 10 ^ order_of_mag y := zpow_pos (by norm_num) _
        apply mul_le_mul_of_nonneg_right _ hpe.le
        exact npRound_mono _ ((div_le_div_right hpe).mpr h)
      · calc roundSig s x ≤ -(10 : ℚ) ^ order_of_mag x := (roundSig_neg_bounds hs hx).2
          _ ≤ -(10 : ℚ) ^ (order_of_mag y + 1) := by
              have : (10 : ℚ) ^ (order_of_mag y + 1) ≤ 10 ^ order_of_mag x :=
                zpow_le_zpow_right₀ (by norm_num) (by omega)
              linarith
          _ ≤ roundSig s y := (roundSig_neg_bounds hs hy).1
    · rw [hy, roundSig_zero]
      exact (roundSig_neg hs hx).le
    · exact le_trans (roundSig_neg hs hx).le (roundSig_pos hs hy).le
  · rw [hx, roundSig_zero]
    exact roundSig_nonneg hs (by rw [← hx]; exact h)
  · have hy : 0 < y := lt_of_lt_of_le hx h
    have hord : order_of_mag x ≤ order_of_mag y := order_of_mag_le_of_le hx h
    rcases eq_or_lt_of_le hord with heq | hlt
    · unfold roundSig
      rw [heq]
      have hpe : (0 : ℚ) < 10 ^ order_of_mag y := zpow_pos (by norm_num) _
      apply mul_le_mul_of_nonneg_right _ hpe.le
      exact npRound_mono _ ((div_le_div_right hpe).mpr h)
    · calc roundSig s x ≤ (10 : ℚ) ^ (order_of_mag x + 1) := (roundSig_pos_bounds hs hx).2
        _ ≤ (10 : ℚ) ^ order_of_mag y := zpow_le_zpow_right₀ (by norm_num) (by omega)
        _ ≤ roundSig s y := (roundSig_pos_bounds hs hy).1

theorem roundSig_eq_self {s : ℤ} {x : ℚ}
    (h : ∃ k : ℤ, x * 10 ^ (s - 1 - order_of_mag x) = (k : ℚ)) : roundSig s x = x := by
  obtain ⟨k, hk⟩ := h
  have h10 : (10 : ℚ) ≠ 0 := by norm_num
  have hpe : (0 : ℚ) < 10 ^ order_of_mag x := zpow_pos (by norm_num) _
  have heq : x / 10 ^ order_of_mag x * 10 ^ (s - 1) = x * 10 ^ (s - 1 - order_of_mag x) := by
    rw [show s - 1 - order_of_mag x = (s - 1) + (-order_of_mag x) by ring,
      zpow_add₀ h10, zpow_neg, div_eq_mul_inv]
    ring
  unfold roundSig
  rw [npRound_eq_self ⟨k, by rw [heq, hk]⟩]
  exact div_mul_cancel₀ x (ne_of_gt hpe)

theorem floorSig_le (s : ℤ) (m : ℚ) : floorSig s m ≤ m := by
  unfold floorSig
  have hp : (0 : ℚ) < 10 ^ (s - 1 - order_of_mag m) := zpow_pos (by norm_num) _
  rw [div_le_iff hp]
  exact Int.floor_le _

theorem le_ceilSig (s : ℤ) (m : ℚ) : m ≤ ceilSig s m := by
  unfold ceilSig
  have hp : (0 : ℚ) < 10 ^ (s - 1 - order_of_mag m) := zpow_pos (by norm_num) _
  rw [le_div_iff hp]
  exact Int.le_ceil _

theorem roundSig_fix_core {s e k : ℤ} (hs : 1 ≤ s)
    (hlo : (10 : ℚ) ^ (s - 1) ≤ |(k : ℚ)|) (hhi : |(k : ℚ)| ≤ 10 ^ s) :
    roundSig s ((k : ℚ) / 10 ^ (s - 1 - e)) = (k : ℚ) / 10 ^ (s - 1 - e) := by
  have h10 : (10 : ℚ) ≠ 0 := by norm_num
  set p := s - 1 - e with hp
  have hppos : (0 : ℚ) < 10 ^ p := zpow_pos (by norm_num) p
  have hkne : (k : ℚ) ≠ 0 := by
    intro h0
    rw [h0] at hlo
    simp at hlo
    have := zpow_pos (show (0:ℚ) < 10 by norm_num) (s - 1)
    linarith
  set y := (k : ℚ) / 10 ^ p with hy
  have hyne : y ≠ 0 := div_ne_zero hkne (ne_of_gt hppos)
  have habsy : |y| = |(k : ℚ)| / 10 ^ p := by
    rw [hy, abs_div, abs_of_pos hppos]
  have hsub1 : (10 : ℚ) ^ (s - 1) / 10 ^ p = 10 ^ e := by
    rw [← zpow_sub₀ h10]
    congr 1
    omega
  have hsub2 : (10 : ℚ) ^ s / 10 ^ p = 10 ^ (e + 1) := by
    rw [← zpow_sub₀ h10]
    congr 1
    omega
  have hylo : (10 : ℚ) ^ e ≤ |y| := by
    rw [habsy, ← hsub1]
    exact (div_le_div_right hppos).mpr hlo
  have hyhi : |y| ≤ 10 ^ (e + 1) := by
    rw [habsy, ← hsub2]
    exact (div_le_div_right hppos).mpr hhi
  rcases eq_or_lt_of_le hyhi with heq | hlt
  · -- |k| = 10^s: the value lands exactly on the next decade
    have hord : order_of_mag y = e + 1 := by
      apply order_of_mag_eq_of_bounds hyne
      · rw [heq]
      · rw [heq]
        exact zpow_lt_zpow_right₀ (by norm_num) (by omega)
    apply roundSig_eq_self
    rw [hord]
    have habsk : |(k : ℚ)| = 10 ^ s := by
      have h2 := heq
      rw [habsy] at h2
      field_simp at h2
      rw [h2, ← zpow_add₀ h10]
      congr 1
      rw [hp]; ring
    have hks : (k : ℚ) = 10 ^ s ∨ (k : ℚ) = -(10 ^ s) := by
      rcases abs_cases (k : ℚ) with ⟨h1, _⟩ | ⟨h1, _⟩
      · left; rw [← h1, habsk]
      · right
        rw [← habsk]
        linarith [h1]
    have hcalc : ∀ sg : ℚ, (k : ℚ) = sg * 10 ^ s →
        y * 10 ^ (s - 1 - (e + 1)) = sg * 10 ^ (s - 1) := by
      intro sg hsign
      rw [hy, hsign]
      have h1 : sg * 10 ^ s / 10 ^ p * 10 ^ (s - 1 - (e + 1))
          = sg * (10 ^ s * (10 ^ p)⁻¹ * 10 ^ (s - 1 - (e + 1))) := by ring
      rw [h1, ← zpow_neg, ← zpow_add₀ h10, ← zpow_add₀ h10]
      congr 2
      rw [hp]
      ring
    rcases hks with h1 | h1
    · refine ⟨(10 : ℤ) ^ (s - 1).toNat, ?_⟩
      rw [hcalc 1 (by rw [h1]; ring), ← zpow_toNat_cast (show (0:ℤ) ≤ s - 1 by omega)]
      ring
    · refine ⟨-(10 : ℤ) ^ (s - 1).toNat, ?_⟩
      rw [hcalc (-1) (by rw [h1]; ring), Int.cast_neg,
        ← zpow_toNat_cast (show (0:ℤ) ≤ s - 1 by omega)]
      ring
  · -- |k| < 10^s: the order of magnitude is e and the value is on the grid
    have hord : order_of_mag y = e := order_of_mag_eq_of_bounds hyne hylo hlt
    apply roundSig_eq_self
    rw [hord]
    refine ⟨k, ?_⟩
    rw [hy, ← hp]
    exact div_mul_cancel₀ _ (ne_of_gt hppos)

theorem floorSig_fixed {s : ℤ} (hs : 1 ≤ s) (m : ℚ) :
    roundSig s (floorSig s m) = floorSig s m := by
  rcases lt_trichotomy m 0 with hm | hm | hm
  · -- m < 0
    obtain ⟨hlo, hhi⟩ := order_of_mag_bounds (ne_of_lt hm)
    rw [abs_of_neg hm] at hlo hhi
    set e := order_of_mag m with he
    set p := s - 1 - e with hp
    have hppos : (0 : ℚ) < 10 ^ p := zpow_pos (by norm_num) p
    have h10 : (10 : ℚ) ≠ 0 := by norm_num
    have hprod1 : (10 : ℚ) ^ e * 10 ^ p = 10 ^ (s - 1) := by
      rw [← zpow_add₀ h10]; congr 1; omega
    have hprod2 : (10 : ℚ) ^ (e + 1) * 10 ^ p = 10 ^ s := by
      rw [← zpow_add₀ h10]; congr 1; omega
    have hv1 : m * 10 ^ p ≤ -(10 ^ (s - 1)) := by
      rw [← hprod1]
      nlinarith
    have hv2 : -(10 ^ s) < m * 10 ^ p := by
      rw [← hprod2]
      nlinarith
    set k := ⌊m * 10 ^ p⌋ with hk
    have hkup : (k : ℚ) ≤ -(10 ^ (s - 1)) := le_trans (Int.floor_le _) hv1
    have hkdn : -(10 : ℚ) ^ s ≤ (k : ℚ) := by
      have hz : (-(10 : ℤ) ^ s.toNat : ℤ) ≤ k := by
        apply Int.le_floor.mpr
        push_cast
        rw [zpow_toNat_q (show (0:ℤ) ≤ s by omega)]
        linarith [hv2]
      calc -(10 : ℚ) ^ s = ((-(10 : ℤ) ^ s.toNat : ℤ) : ℚ) := by
            push_cast
            rw [zpow_toNat_q (show (0:ℤ) ≤ s by omega)]
        _ ≤ (k : ℚ) := by exact_mod_cast hz
    have hkneg : (k : ℚ) < 0 := by
      have := zpow_pos (show (0:ℚ) < 10 by norm_num) (s - 1)
      linarith
    have habs : |(k : ℚ)| = -(k : ℚ) := abs_of_neg hkneg
    unfold floorSig
    rw [← he, ← hp, ← hk]
    exact roundSig_fix_core hs (by rw [habs]; linarith) (by rw [habs]; linarith)
  · simp [floorSig, hm, roundSig_zero]
  · -- 0 < m
    obtain ⟨hlo, hhi⟩ := order_of_mag_bounds (ne_of_gt hm)
    rw [abs_of_pos hm] at hlo hhi
    set e := order_of_mag m with he
    set p := s - 1 - e with hp
    have hppos : (0 : ℚ) < 10 ^ p := zpow_pos (by norm_num) p
    have h10 : (10 : ℚ) ≠ 0 := by norm_num
    have hprod1 : (10 : ℚ) ^ e * 10 ^ p = 10 ^ (s - 1) := by
      rw [← zpow_add₀ h10]; congr 1; omega
    have hprod2 : (10 : ℚ) ^ (e + 1) * 10 ^ p = 10 ^ s := by
      rw [← zpow_add₀ h10]; congr 1; omega
    have hv1 : (10 : ℚ) ^ (s - 1) ≤ m * 10 ^ p := by
      rw [← hprod1]
      nlinarith
    have hv2 : m * 10 ^ p < 10 ^ s := by
      rw [← hprod2]
      nlinarith
    set k := ⌊m * 10 ^ p⌋ with hk
    have hkdn : (10 : ℚ) ^ (s - 1) ≤ (k : ℚ) := by
      have hz : ((10 : ℤ) ^ (s - 1).toNat : ℤ) ≤ k := by
        apply Int.le_floor.mpr
        rw [show (((10 : ℤ) ^ (s - 1).toNat : ℤ) : ℚ) = (10 : ℚ) ^ (s - 1) from
          (zpow_toNat_cast (show (0:ℤ) ≤ s - 1 by omega)).symm]
        exact hv1
      calc (10 : ℚ) ^ (s - 1) = (((10 : ℤ) ^ (s - 1).toNat : ℤ) : ℚ) :=
            zpow_toNat_cast (by omega)
        _ ≤ (k : ℚ) := by exact_mod_cast hz
    have hkup : (k : ℚ) ≤ 10 ^ s := le_trans (Int.floor_le _) hv2.le
    have hkpos : (0 : ℚ) < (k : ℚ) := by
      have := zpow_pos (show (0:ℚ) < 10 by norm_num) (s - 1)
      linarith
    have habs : |(k : ℚ)| = (k : ℚ) := abs_of_pos hkpos
    unfold floorSig
    rw [← he, ← hp, ← hk]
    exact roundSig_fix_core hs (by rw [habs]; linarith) (by rw [habs]; linarith)

theorem ceilSig_fixed {s : ℤ} (hs : 1 ≤ s) (m : ℚ) :
    roundSig s (ceilSig s m) = ceilSig s m := by
  rcases lt_trichotomy m 0 with hm | hm | hm
  · -- m < 0
    obtain ⟨hlo, hhi⟩ := order_of_mag_bounds (ne_of_lt hm)
    rw [abs_of_neg hm] at hlo hhi
    set e := order_of_mag m with he
    set p := s - 1 - e with hp
    have hppos : (0 : ℚ) < 10 ^ p := zpow_pos (by norm_num) p
    have h10 : (10 : ℚ) ≠ 0 := by norm_num
    have hprod1 : (10 : ℚ) ^ e * 10 ^ p = 10 ^ (s - 1) := by
      rw [← zpow_add₀ h10]; congr 1; omega
    have hprod2 : (10 : ℚ) ^ (e + 1) * 10 ^ p = 10 ^ s := by
      rw [← zpow_add₀ h10]; congr 1; omega
    have hv1 : m * 10 ^ p ≤ -(10 ^ (s - 1)) := by
      rw [← hprod1]
      nlinarith
    have hv2 : -(10 ^ s) < m * 10 ^ p := by
      rw [← hprod2]
      nlinarith
    set k := ⌈m * 10 ^ p⌉ with hk
    have hkup : (k : ℚ) ≤ -(10 ^ (s - 1)) := by
      have hz : k ≤ (-(10 : ℤ) ^ (s - 1).toNat : ℤ) := by
        apply Int.ceil_le.mpr
        push_cast
        rw [zpow_toNat_q (show (0:ℤ) ≤ s - 1 by omega)]
        linarith [hv1]
      calc (k : ℚ) ≤ ((-(10 : ℤ) ^ (s - 1).toNat : ℤ) : ℚ) := by exact_mod_cast hz
        _ = -(10 : ℚ) ^ (s - 1) := by
            push_cast
            rw [zpow_toNat_q (show (0:ℤ) ≤ s - 1 by omega)]
    have hkdn : -(10 : ℚ) ^ s ≤ (k : ℚ) := by
      have := Int.le_ceil (m * 10 ^ p)
      linarith
    have hkneg : (k : ℚ) < 0 := by
      have := zpow_pos (show (0:ℚ) < 10 by norm_num) (s - 1)
      linarith
    have habs : |(k : ℚ)| = -(k : ℚ) := abs_of_neg hkneg
    unfold ceilSig
    rw [← he, ← hp, ← hk]
    exact roundSig_fix_core hs (by rw [habs]; linarith) (by rw [habs]; linarith)
  · simp [ceilSig, hm, roundSig_zero]
  · -- 0 < m
    obtain ⟨hlo, hhi⟩ := order_of_mag_bounds (ne_of_gt hm)
    rw [abs_of_pos hm] at hlo hhi
    set e := order_of_mag m with he
    set p := s - 1 - e with hp
    have hppos : (0 : ℚ) < 10 ^ p := zpow_pos (by norm_num) p
    have h10 : (10 : ℚ) ≠ 0 := by norm_num
    have hprod1 : (10 : ℚ) ^ e * 10 ^ p = 10 ^ (s - 1) := by
      rw [← zpow_add₀ h10]; congr 1; omega
    have hprod2 : (10 : ℚ) ^ (e + 1) * 10 ^ p = 10 ^ s := by
      rw [← zpow_add₀ h10]; congr 1; omega
    have hv1 : (10 : ℚ) ^ (s - 1) ≤ m * 10 ^ p := by
      rw [← hprod1]
      nlinarith
    have hv2 : m * 10 ^ p < 10 ^ s := by
      rw [← hprod2]
      nlinarith
    set k := ⌈m * 10 ^ p⌉ with hk
    have hkdn : (10 : ℚ) ^ (s - 1) ≤ (k : ℚ) := by
      have := Int.le_ceil (m * 10 ^ p)
      linarith
    have hkup : (k : ℚ) ≤ 10 ^ s := by
      have hz : k ≤ ((10 : ℤ) ^ s.toNat : ℤ) := by
        apply Int.ceil_le.mpr
        rw [show (((10 : ℤ) ^ s.toNat : ℤ) : ℚ) = (10 : ℚ) ^ s from
          (zpow_toNat_cast (show (0:ℤ) ≤ s by omega)).symm]
        exact hv2.le
      calc (k : ℚ) ≤ (((10 : ℤ) ^ s.toNat : ℤ) : ℚ) := by exact_mod_cast hz
        _ = (10 : ℚ) ^ s := (zpow_toNat_cast (by omega)).symm
    have hkpos : (0 : ℚ) < (k : ℚ) := by
      have := zpow_pos (show (0:ℚ) < 10 by norm_num) (s - 1)
      linarith
    have habs : |(k : ℚ)| = (k : ℚ) := abs_of_pos hkpos
    unfold ceilSig
    rw [← he, ← hp, ← hk]
    exact roundSig_fix_core hs (by rw [habs]; linarith) (by rw [habs]; linarith)

theorem insertUniq_mem {a c : ℚ} : ∀ {l : List ℚ}, c ∈ insertUniq a l ↔ c = a ∨ c ∈ l := by
  intro l
  induction l with
  | nil => simp [insertUniq]
  | cons b t ih =>
    simp only [insertUniq]
    split_ifs with h1 h2
    · simp [List.mem_cons]
    · subst h2
      simp only [List.mem_cons]
      tauto
    · simp only [List.mem_cons, ih]
      tauto

theorem insertUniq_sorted {a : ℚ} : ∀ {l : List ℚ},
    l.Sorted (· < ·) → (insertUniq a l).Sorted (· < ·) := by
  intro l
  induction l with
  | nil => intro _; simp [insertUniq]
  | cons b t ih =>
    intro hs
    have hs' := hs
    rw [List.sorted_cons] at hs'
    simp only [insertUniq]
    split_ifs with h1 h2
    · rw [List.sorted_cons]
      refine ⟨fun c hc => ?_, hs⟩
      rcases List.mem_cons.mp hc with rfl | hc
      · exact h1
      · exact lt_trans h1 (hs'.1 c hc)
    · exact hs
    · rw [List.sorted_cons]
      have hba : b < a := by
        rcases lt_trichotomy a b with h | h | h
        · exact absurd h h1
        · exact absurd h h2
        · exact h
      refine ⟨fun c hc => ?_, ih hs'.2⟩
      rcases insertUniq_mem.mp hc with rfl | hc
      · exact hba
      · exact hs'.1 c hc

theorem npUnique_sorted (l : List ℚ) : (npUnique l).Sorted (· < ·) := by
  induction l with
  | nil => simp [npUnique]
  | cons a t ih => exact insertUniq_sorted ih

theorem npUnique_mem {c : ℚ} : ∀ {l : List ℚ}, c ∈ npUnique l ↔ c ∈ l := by
  intro l
  induction l with
  | nil => simp [npUnique]
  | cons a t ih =>
    show c ∈ insertUniq a (npUnique t) ↔ _
    rw [insertUniq_mem]
    simp only [List.mem_cons, ih]

theorem npUnique_nodup (l : List ℚ) : (npUnique l).Nodup :=
  (npUnique_sorted l).nodup

theorem insertLe_mem {a c : ℚ} : ∀ {l : List ℚ}, c ∈ insertLe a l ↔ c = a ∨ c ∈ l := by
  intro l
  induction l with
  | nil => simp [insertLe]
  | cons b t ih =>
    simp only [insertLe]
    split_ifs with h1
    · simp [List.mem_cons]
    · simp only [List.mem_cons, ih]
      tauto

theorem insertLe_sorted {a : ℚ} : ∀ {l : List ℚ},
    l.Sorted (· ≤ ·) → (insertLe a l).Sorted (· ≤ ·) := by
  intro l
  induction l with
  | nil => intro _; simp [insertLe]
  | cons b t ih =>
    intro hs
    have hs' := hs
    rw [List.sorted_cons] at hs'
    simp only [insertLe]
    split_ifs with h1
    · rw [List.sorted_cons]
      refine ⟨fun c hc => ?_, hs⟩
      rcases List.mem_cons.mp hc with rfl | hc
      · exact h1
      · exact le_trans h1 (hs'.1 c hc)
    · rw [List.sorted_cons]
      have hba : b ≤ a := le_of_not_le h1
      refine ⟨fun c hc => ?_, ih hs'.2⟩
      rcases insertLe_mem.mp hc with rfl | hc
      · exact hba
      · exact hs'.1 c hc

theorem sortQ_sorted (l : List ℚ) : (sortQ l).Sorted (· ≤ ·) := by
  induction l with
  | nil => simp [sortQ]
  | cons a t ih => exact insertLe_sorted ih

theorem sortQ_mem {c : ℚ} : ∀ {l : List ℚ}, c ∈ sortQ l ↔ c ∈ l := by
  intro l
  induction l with
  | nil => simp [sortQ]
  | cons a t ih =>
    show c ∈ insertLe a (sortQ t) ↔ _
    rw [insertLe_mem]
    simp only [List.mem_cons, ih]

theorem insertLe_length (a : ℚ) : ∀ (l : List ℚ), (insertLe a l).length = l.length + 1 := by
  intro l
  induction l with
  | nil => simp [insertLe]
  | cons b t ih =>
    simp only [insertLe]
    split_ifs with h1
    · simp
    · simp [ih]

theorem sortQ_length (l : List ℚ) : (sortQ l).length = l.length := by
  induction l with
  | nil => simp [sortQ]
  | cons a t ih =>
    show (insertLe a (sortQ t)).length = _
    rw [insertLe_length, ih]
    simp

theorem getD_mem {l : List ℚ} {i : ℕ} (h : i < l.length) : l.getD i 0 ∈ l := by
  rw [List.getD_eq_getElem l 0 h]
  exact List.getElem_mem h

theorem sorted_le_getD_mono {l : List ℚ} (hs : l.Sorted (· ≤ ·)) {i j : ℕ}
    (hij : i ≤ j) (hj : j < l.length) : l.getD i 0 ≤ l.getD j 0 := by
  have hi : i < l.length := lt_of_le_of_lt hij hj
  rw [List.getD_eq_getElem l 0 hi, List.getD_eq_getElem l 0 hj]
  rcases eq_or_lt_of_le hij with rfl | hlt
  · exact le_refl _
  · exact List.pairwise_iff_getElem.mp hs i j hi hj hlt

theorem sorted_lt_getD_mono {l : List ℚ} (hs : l.Sorted (· < ·)) {i j : ℕ}
    (hij : i < j) (hj : j < l.length) : l.getD i 0 < l.getD j 0 := by
  have hi : i < l.length := lt_trans hij hj
  rw [List.getD_eq_getElem l 0 hi, List.getD_eq_getElem l 0 hj]
  exact List.pairwise_iff_getElem.mp hs i j hi hj hij

theorem foldl_min_le_init : ∀ (l : List ℚ) (a : ℚ), l.foldl min a ≤ a := by
  intro l
  induction l with
  | nil => intro a; simp
  | cons b t ih =>
    intro a
    calc (b :: t).foldl min a = t.foldl min (min a b) := by simp
      _ ≤ min a b := ih _
      _ ≤ a := min_le_left _ _

theorem foldl_min_le_mem : ∀ {l : List ℚ} {b : ℚ} (_ : b ∈ l) (a : ℚ), l.foldl min a ≤ b := by
  intro l
  induction l with
  | nil => intro b hb; simp at hb
  | cons c t ih =>
    intro b hb a
    rcases List.mem_cons.mp hb with rfl | hb
    · calc (b :: t).foldl min a = t.foldl min (min a b) := by simp
        _ ≤ min a b := foldl_min_le_init _ _
        _ ≤ b := min_le_right _ _
    · exact ih hb _

theorem foldl_min_mem : ∀ (l : List ℚ) (a : ℚ), l.foldl min a = a ∨ l.foldl min a ∈ l := by
  intro l
  induction l with
  | nil => intro a; left; simp
  | cons b t ih =>
    intro a
    have h1 : (b :: t).foldl min a = t.foldl min (min a b) := by simp
    rcases ih (min a b) with h | h
    · rcases min_cases a b with ⟨hm, _⟩ | ⟨hm, _⟩
      · left; rw [h1, h, hm]
      · right; rw [h1, h, hm]; exact List.mem_cons_self b t
    · right
      rw [h1]
      exact List.mem_cons_of_mem b h

theorem listMin_le_mem {x : List ℚ} {b : ℚ} (hb : b ∈ x) : listMin x ≤ b := by
  cases x with
  | nil => simp at hb
  | cons a t =>
    rcases List.mem_cons.mp hb with rfl | hb
    · exact foldl_min_le_init t b
    · exact foldl_min_le_mem hb a

theorem listMin_mem {x : List ℚ} (hx : x ≠ []) : listMin x ∈ x := by
  cases x with
  | nil => exact absurd rfl hx
  | cons a t =>
    rcases foldl_min_mem t a with h | h
    · rw [listMin, h]; exact List.mem_cons_self a t
    · exact List.mem_cons_of_mem a h

theorem foldl_max_ge_init : ∀ (l : List ℚ) (a : ℚ), a ≤ l.foldl max a := by
  intro l
  induction l with
  | nil => intro a; simp
  | cons b t ih =>
    intro a
    calc a ≤ max a b := le_max_left _ _
      _ ≤ t.foldl max (max a b) := ih _
      _ = (b :: t).foldl max a := by simp

theorem foldl_max_ge_mem : ∀ {l : List ℚ} {b : ℚ} (_ : b ∈ l) (a : ℚ), b ≤ l.foldl max a := by
  intro l
  induction l with
  | nil => intro b hb; simp at hb
  | cons c t ih =>
    intro b hb a
    rcases List.mem_cons.mp hb with rfl | hb
    · calc b ≤ max a b := le_max_right _ _
        _ ≤ t.foldl max (max a b) := foldl_max_ge_init _ _
        _ = (b :: t).foldl max a := by simp
    · exact ih hb _

theorem foldl_max_mem : ∀ (l : List ℚ) (a : ℚ), l.foldl max a = a ∨ l.foldl max a ∈ l := by
  intro l
  induction l with
  | nil => intro a; left; simp
  | cons b t ih =>
    intro a
    have h1 : (b :: t).foldl max a = t.foldl max (max a b) := by simp
    rcases ih (max a b) with h | h
    · rcases max_cases a b with ⟨hm, _⟩ | ⟨hm, _⟩
      · left; rw [h1, h, hm]
      · right; rw [h1, h, hm]; exact List.mem_cons_self b t
    · right
      rw [h1]
      exact List.mem_cons_of_mem b h

theorem listMax_ge_mem {x : List ℚ} {b : ℚ} (hb : b ∈ x) : b ≤ listMax x := by
  cases x with
  | nil => simp at hb
  | cons a t =>
    rcases List.mem_cons.mp hb with rfl | hb
    · exact foldl_max_ge_init t b
    · exact foldl_max_ge_mem hb a

theorem listMax_mem {x : List ℚ} (hx : x ≠ []) : listMax x ∈ x := by
  cases x with
  | nil => exact absurd rfl hx
  | cons a t =>
    rcases foldl_max_mem t a with h | h
    · rw [listMax, h]; exact List.mem_cons_self a t
    · exact List.mem_cons_of_mem a h

theorem listMin_le_listMax {x : List ℚ} (hx : x ≠ []) : listMin x ≤ listMax x :=
  le_trans (listMin_le_mem (listMin_mem hx)) (le_refl _) |>.trans
    (listMax_ge_mem (listMin_mem hx))

theorem linspace_mem {a b : ℚ} {num : ℤ} {l : List ℚ} (h : linspace a b num = .ok l) :
    ∀ z ∈ l, min a b ≤ z ∧ z ≤ max a b := by
  unfold linspace at h
  split_ifs at h with hneg
  rw [Except.ok.injEq] at h
  subst h
  intro z hz
  obtain ⟨i, hi, rfl⟩ := List.mem_map.mp hz
  rw [List.mem_range] at hi
  rcases Nat.eq_zero_or_pos i with rfl | hipos
  · simp only [Nat.cast_zero, zero_mul, zero_div, add_zero]
    exact ⟨min_le_left _ _, le_max_left _ _⟩
  · have hn2 : (2 : ℤ) ≤ num := by omega
    have hd : (0 : ℚ) < (num : ℚ) - 1 := by
      have : (2 : ℚ) ≤ (num : ℚ) := by exact_mod_cast hn2
      linarith
    have hi0 : (0 : ℚ) ≤ (i : ℚ) := by positivity
    have hile : (i : ℚ) ≤ (num : ℚ) - 1 := by
      have h1 : (i : ℤ) ≤ num - 1 := by omega
      have h2 : ((i : ℤ) : ℚ) ≤ ((num - 1 : ℤ) : ℚ) := by exact_mod_cast h1
      push_cast at h2
      push_cast
      linarith
    rcases le_total a b with hab | hab
    · rw [min_eq_left hab, max_eq_right hab]
      constructor
      · have : (0 : ℚ) ≤ (i : ℚ) * (b - a) / ((num : ℚ) - 1) := by
          apply div_nonneg _ hd.le
          nlinarith
        linarith
      · have h1 : (i : ℚ) * (b - a) / ((num : ℚ) - 1) ≤ b - a := by
          rw [div_le_iff hd]
          nlinarith
        linarith
    · rw [min_eq_right hab, max_eq_left hab]
      constructor
      · have h1 : (b - a) ≤ (i : ℚ) * (b - a) / ((num : ℚ) - 1) := by
          rw [le_div_iff hd]
          nlinarith
        linarith
      · have : (i : ℚ) * (b - a) / ((num : ℚ) - 1) ≤ 0 := by
          apply div_nonpos_of_nonpos_of_nonneg _ hd.le
          nlinarith
        linarith

theorem npQuantile_ne_nil {x : List ℚ} {q r : ℚ} (h : npQuantile x q = .ok r) : x ≠ [] := by
  intro hx
  subst hx
  simp [npQuantile] at h

theorem npQuantile_bounds {x : List ℚ} {q r : ℚ} (h : npQuantile x q = .ok r) :
    listMin x ≤ r ∧ r ≤ listMax x := by
  have hxne : x ≠ [] := npQuantile_ne_nil h
  unfold npQuantile at h
  split_ifs at h with h1 h2
  rw [Except.ok.injEq] at h
  push_neg at h2
  obtain ⟨hq0, hq1⟩ := h2
  set s := sortQ x with hsdef
  have hslen : s.length = x.length := sortQ_length x
  have hn1 : 1 ≤ s.length := by
    rw [hslen]
    exact List.length_pos.mpr hxne
  set pos := q * ((s.length : ℚ) - 1) with hpos
  have hpos0 : 0 ≤ pos := by
    apply mul_nonneg hq0
    have : (1 : ℚ) ≤ (s.length : ℚ) := by exact_mod_cast hn1
    linarith
  have hposle : pos ≤ (s.length : ℚ) - 1 := by
    have hle : (1 : ℚ) ≤ (s.length : ℚ) := by exact_mod_cast hn1
    nlinarith
  have hfl0 : 0 ≤ ⌊pos⌋ := Int.floor_nonneg.mpr hpos0
  have hfl_le : ⌊pos⌋ ≤ (s.length : ℤ) - 1 := by
    have h3 : (((s.length : ℤ) - 1 : ℤ) : ℚ) = (s.length : ℚ) - 1 := by push_cast; ring
    have := Int.floor_mono (le_trans hposle (le_of_eq h3.symm) |>.trans_eq rfl)
    calc ⌊pos⌋ ≤ ⌊(((s.length : ℤ) - 1 : ℤ) : ℚ)⌋ := by
          apply Int.floor_mono
          rw [h3]
          exact hposle
      _ = (s.length : ℤ) - 1 := Int.floor_intCast _
  set i := ⌊pos⌋.toNat with hidef
  have hi_lt : i < s.length := by omega
  have hicast : ((i : ℤ) : ℚ) = ((⌊pos⌋ : ℤ) : ℚ) := by
    rw [hidef]
    congr 1
    omega
  have hg0 : 0 ≤ pos - (⌊pos⌋ : ℚ) := by
    have := Int.floor_le pos
    linarith
  have hg1 : pos - (⌊pos⌋ : ℚ) < 1 := by
    have := Int.lt_floor_add_one pos
    linarith
  have hsi_mem : s.getD i 0 ∈ x := sortQ_mem.mp (getD_mem hi_lt)
  rcases Nat.lt_or_ge (i + 1) s.length with hi1 | hi1
  · have hsorted : s.getD i 0 ≤ s.getD (i + 1) 0 :=
      sorted_le_getD_mono (sortQ_sorted x) (by omega) hi1
    have hsi1_mem : s.getD (i + 1) 0 ∈ x := sortQ_mem.mp (getD_mem hi1)
    constructor
    · rw [← h]
      have h4 : 0 ≤ (pos - (⌊pos⌋ : ℚ)) * (s.getD (i + 1) 0 - s.getD i 0) := by
        apply mul_nonneg hg0
        linarith
      have := listMin_le_mem hsi_mem
      linarith
    · rw [← h]
      have h4 : (pos - (⌊pos⌋ : ℚ)) * (s.getD (i + 1) 0 - s.getD i 0) ≤
          s.getD (i + 1) 0 - s.getD i 0 := by
        nlinarith
      have := listMax_ge_mem hsi1_mem
      linarith
  · -- i is the last index: the fractional part is zero
    have hieq : (i : ℤ) = (s.length : ℤ) - 1 := by omega
    have hgz : pos - (⌊pos⌋ : ℚ) = 0 := by
      have h5 : ((⌊pos⌋ : ℤ) : ℚ) = (s.length : ℚ) - 1 := by
        rw [← hicast, hieq]
        push_cast
        ring
      linarith [Int.floor_le pos, hposle, h5]
    rw [← h, hgz, zero_mul, add_zero]
    exact ⟨listMin_le_mem hsi_mem, listMax_ge_mem hsi_mem⟩

theorem finalizeCuts_sorted (s : ℤ) (lb ub : ℚ) (c : List ℚ) :
    (finalizeCuts s lb ub c).Sorted (· < ·) := npUnique_sorted _

theorem finalizeCuts_mem {s : ℤ} {lb ub y : ℚ} {c : List ℚ} :
    y ∈ finalizeCuts s lb ub c ↔ ∃ z, (z = lb ∨ z ∈ c ∨ z = ub) ∧ roundSig s z = y := by
  unfold finalizeCuts
  rw [npUnique_mem, List.mem_map]
  constructor
  · rintro ⟨z, hz, rfl⟩
    rw [npUnique_mem] at hz
    refine ⟨z, ?_, rfl⟩
    simp only [List.mem_cons, List.mem_append, List.mem_singleton] at hz
    tauto
  · rintro ⟨z, hz, rfl⟩
    refine ⟨z, ?_, rfl⟩
    rw [npUnique_mem]
    simp only [List.mem_cons, List.mem_append, List.mem_singleton]
    tauto

theorem sorted_head?_eq {l : List ℚ} (hs : l.Sorted (· < ·)) {m : ℚ} (hm : m ∈ l)
    (hlow : ∀ y ∈ l, m ≤ y) : l.head? = some m := by
  cases l with
  | nil => simp at hm
  | cons a t =>
    have h1 : m ≤ a := hlow a (List.mem_cons_self a t)
    rcases List.mem_cons.mp hm with rfl | hmt
    · rfl
    · rw [List.sorted_cons] at hs
      exact absurd (hs.1 m hmt) (not_lt.mpr h1)

theorem sorted_getLast?_eq : ∀ {l : List ℚ}, l.Sorted (· < ·) → ∀ {m : ℚ}, m ∈ l →
    (∀ y ∈ l, y ≤ m) → l.getLast? = some m := by
  intro l
  induction l with
  | nil => intro _ m hm; simp at hm
  | cons a t ih =>
    intro hs m hm hhigh
    cases t with
    | nil =>
      rcases List.mem_cons.mp hm with rfl | hmt
      · rfl
      · simp at hmt
    | cons b t2 =>
      rw [List.getLast?_cons_cons]
      rw [List.sorted_cons] at hs
      apply ih hs.2
      · rcases List.mem_cons.mp hm with rfl | hmt
        · have h1 : m < b := hs.1 b (List.mem_cons_self b t2)
          have h2 : b ≤ m := hhigh b (List.mem_cons_of_mem _ (List.mem_cons_self b t2))
          exact absurd h1 (not_lt.mpr h2)
        · exact hmt
      · intro y hy
        exact hhigh y (List.mem_cons_of_mem _ hy)

theorem exceptMapM_nil {α β : Type} (f : α → Except PyErr β) :
    List.mapM f [] = .ok [] := rfl

theorem exceptMapM_cons {α β : Type} (f : α → Except PyErr β) (a : α) (l : List α) :
    List.mapM f (a :: l) =
      Except.bind (f a) (fun b =>
        Except.bind (List.mapM f l) (fun bs => Except.ok (b :: bs))) := by
  rw [List.mapM_cons]
  rfl

theorem exceptMapM_error {α β : Type} {f : α → Except PyErr β} :
    ∀ {l : List α} {e : PyErr}, List.mapM f l = .error e → ∃ a ∈ l, f a = .error e := by
  intro l
  induction l with
  | nil => intro e h; rw [exceptMapM_nil] at h; cases h
  | cons a t ih =>
    intro e h
    rw [exceptMapM_cons] at h
    cases hfa : f a with
    | error e2 =>
      rw [hfa] at h
      simp only [Except.bind] at h
      cases h
      exact ⟨a, List.mem_cons_self a t, hfa⟩
    | ok b =>
      rw [hfa] at h
      simp only [Except.bind] at h
      cases hmt : List.mapM f t with
      | error e2 =>
        rw [hmt] at h
        simp only [Except.bind] at h
        cases h
        obtain ⟨c, hc, hfc⟩ := ih hmt
        exact ⟨c, List.mem_cons_of_mem a hc, hfc⟩
      | ok bs =>
        rw [hmt] at h
        simp only [Except.bind] at h
        cases h

theorem exceptMapM_ok_exists {α β : Type} {f : α → Except PyErr β} :
    ∀ {l : List α}, (∀ a ∈ l, ∃ b, f a = .ok b) → ∃ r, List.mapM f l = .ok r := by
  intro l
  induction l with
  | nil => intro _; exact ⟨[], rfl⟩
  | cons a t ih =>
    intro h
    obtain ⟨b, hb⟩ := h a (List.mem_cons_self a t)
    obtain ⟨r, hr⟩ := ih (fun c hc => h c (List.mem_cons_of_mem a hc))
    refine ⟨b :: r, ?_⟩
    rw [exceptMapM_cons, hb]
    simp only [Except.bind, hr]

theorem exceptMapM_ok_forall₂ {α β : Type} {f : α → Except PyErr β} :
    ∀ {l : List α} {r : List β}, List.mapM f l = .ok r →
      List.Forall₂ (fun a b => f a = .ok b) l r := by
  intro l
  induction l with
  | nil =>
    intro r h
    rw [exceptMapM_nil] at h
    cases h
    exact List.Forall₂.nil
  | cons a t ih =>
    intro r h
    rw [exceptMapM_cons] at h
    cases hfa : f a with
    | error e2 => rw [hfa] at h; simp only [Except.bind] at h; cases h
    | ok b =>
      rw [hfa] at h
      simp only [Except.bind] at h
      cases hmt : List.mapM f t with
      | error e2 => rw [hmt] at h; simp only [Except.bind] at h; cases h
      | ok bs =>
        rw [hmt] at h
        simp only [Except.bind, Except.ok.injEq] at h
        subst h
        exact List.Forall₂.cons hfa (ih hmt)

theorem exceptMapM_ok_length {α β : Type} {f : α → Except PyErr β} {l : List α} {r : List β}
    (h : List.mapM f l = .ok r) : r.length = l.length :=
  (List.Forall₂.length_eq (exceptMapM_ok_forall₂ h)).symm

theorem numericVarCutpoints_ok_elim {fns : RealFns} {x : List ℚ} {qntl : Option (ℚ × ℚ)}
    {cuts : Cuts} {ncuts sig : ℤ} {cf : List ℚ} {fmts : List String}
    (h : numericVarCutpoints fns x qntl cuts ncuts sig = .ok (cf, fmts)) :
    x ≠ [] ∧ ∃ ep c,
      epOf x qntl (floorSig sig (listMin x)) (ceilSig sig (listMax x)) = .ok ep ∧
      createCutsH fns x cuts ncuts ep = .ok c ∧
      cf = finalizeCuts sig (floorSig sig (listMin x)) (ceilSig sig (listMax x)) c := by
  unfold numericVarCutpoints at h
  split_ifs at h with hx
  dsimp only [] at h
  refine ⟨hx, ?_⟩
  cases hep : epOf x qntl (floorSig sig (listMin x)) (ceilSig sig (listMax x)) with
  | error e => rw [hep] at h; simp [Bind.bind, Except.bind] at h
  | ok ep =>
    rw [hep] at h
    simp only [Bind.bind, Except.bind] at h
    cases hc : createCutsH fns x cuts ncuts ep with
    | error e => rw [hc] at h; simp at h
    | ok c =>
      rw [hc] at h
      simp only [] at h
      cases hf : (finalizeCuts sig (floorSig sig (listMin x)) (ceilSig sig (listMax x)) c).mapM
          (fun i => humanReadableNum i sig) with
      | error e => rw [hf] at h; simp at h
      | ok fs =>
        rw [hf] at h
        simp only [Except.ok.injEq, Prod.mk.injEq] at h
        exact ⟨ep, c, rfl, hc, h.1.symm⟩

theorem pyFixed_error {q : ℚ} {p : ℤ} {e : PyErr} (h : pyFixed q p = .error e) :
    e = .formatPrec := by
  unfold pyFixed at h
  split_ifs at h
  cases h
  rfl

theorem pyFixed_ok_of_nonneg {q : ℚ} {p : ℤ} (hp : 0 ≤ p) :
    pyFixed q p = .ok (pyFixedRaw q p.toNat) := by
  unfold pyFixed
  rw [if_neg (by omega)]

theorem pyFixed_cases (q : ℚ) (p : ℤ) :
    (∃ str, pyFixed q p = .ok str) ∨ pyFixed q p = .error .formatPrec := by
  unfold pyFixed
  split_ifs
  · right; rfl
  · left; exact ⟨_, rfl⟩

theorem except_bind_format {r : Except PyErr String}
    (hr : (∃ s, r = .ok s) ∨ r = .error .formatPrec) (f : String → String) :
    (∃ s, Except.bind r (fun t => Except.ok (f t)) = .ok s) ∨
      Except.bind r (fun t => Except.ok (f t)) = .error .formatPrec := by
  rcases hr with ⟨s, hs⟩ | hs
  · left
    rw [hs]
    exact ⟨f s, rfl⟩
  · right
    rw [hs]
    rfl

theorem human_readable_num_cases (q : ℚ) (s : ℤ) :
    (∃ str, human_readable_num q s = .ok str) ∨
      human_readable_num q s = .error .formatPrec := by
  unfold human_readable_num
  dsimp only []
  split_ifs <;> first
    | (left; exact ⟨_, rfl⟩)
    | exact pyFixed_cases _ _
    | exact except_bind_format (pyFixed_cases _ _) _

theorem human_readable_num_error {q : ℚ} {s : ℤ} {e : PyErr}
    (h : human_readable_num q s = .error e) : e = .formatPrec := by
  rcases human_readable_num_cases q s with ⟨str, hs⟩ | hs
  · rw [h] at hs; cases hs
  · rw [h] at hs
    rw [Except.error.injEq] at hs
    exact hs

theorem order_of_mag_neg_of_small {q : ℚ} (hq : q ≠ 0) (h1 : |q| < 1) :
    order_of_mag q < 0 := by
  by_contra hc
  push_neg at hc
  have h2 : (10 : ℚ) ^ (0 : ℤ) ≤ 10 ^ order_of_mag q := zpow_le_zpow_right₀ (by norm_num) hc
  rw [zpow_zero] at h2
  have := (order_of_mag_bounds hq).1
  linarith

theorem human_readable_num_ok_s3 (q : ℚ) : ∃ str, human_readable_num q 3 = .ok str := by
  unfold human_readable_num
  dsimp only []
  split_ifs with h1 h2 h3 h4 h5
  · exact ⟨_, rfl⟩
  · rw [pyFixed_ok_of_nonneg (by
      have := order_of_mag_neg_of_small h1 h2
      omega)]
    exact ⟨_, rfl⟩
  · rw [pyFixed_ok_of_nonneg (by omega)]
    exact ⟨_, rfl⟩
  all_goals (rw [pyFixed_ok_of_nonneg (by omega)]; exact ⟨_, rfl⟩)

theorem linspace_error {a b : ℚ} {num : ℤ} {e : PyErr} (h : linspace a b num = .error e) :
    e = .negLinspace := by
  unfold linspace at h
  split_ifs at h
  cases h
  rfl

theorem npQuantile_error {x : List ℚ} {q : ℚ} {e : PyErr} (h : npQuantile x q = .error e) :
    e = .emptySample ∨ e = .quantileRange := by
  unfold npQuantile at h
  split_ifs at h
  · cases h; left; rfl
  · cases h; right; rfl

theorem createCutsH_invalidRange_iff (fns : RealFns) (x : List ℚ) (cuts : Cuts) (ncuts : ℤ)
    (ep : ℚ × ℚ) :
    createCutsH fns x cuts ncuts ep = .error .invalidRange ↔
      (cuts = .log ∧ (ep.1 = 0 ∨ ep.2 = 0)) := by
  cases cuts with
  | linear =>
    unfold createCutsH
    constructor
    · intro h
      have := linspace_error h
      cases this
    · rintro ⟨h, -⟩; cases h
  | log =>
    unfold createCutsH
    split_ifs with hc
    · simp [hc]
    · constructor
      · intro h
        cases hl : linspace (npSign ep.1 * fns.log10 |ep.1|) (npSign ep.2 * fns.log10 |ep.2|) ncuts with
        | error e =>
          rw [hl] at h
          simp only [Bind.bind, Except.bind] at h
          cases h
          cases linspace_error hl
        | ok l =>
          rw [hl] at h
          simp only [Bind.bind, Except.bind] at h
          cases h
      · rintro ⟨-, h⟩; exact absurd h hc
  | logp1 =>
    unfold createCutsH
    constructor
    · intro h
      cases hl : linspace (npSign ep.1 * fns.log10 (|ep.1| + 1))
          (npSign ep.2 * fns.log10 (|ep.2| + 1)) ncuts with
      | error e =>
        rw [hl] at h
        simp only [Bind.bind, Except.bind] at h
        cases h
        cases linspace_error hl
      | ok l =>
        rw [hl] at h
        simp only [Bind.bind, Except.bind] at h
        cases h
    · rintro ⟨h, -⟩; cases h
  | quantile =>
    unfold createCutsH
    constructor
    · intro h
      cases hl : linspace 0 1 ncuts with
      | error e =>
        rw [hl] at h
        simp only [Bind.bind, Except.bind] at h
        cases h
        cases linspace_error hl
      | ok qs =>
        rw [hl] at h
        simp only [Bind.bind, Except.bind] at h
        cases hm : List.mapM (npQuantile x) qs with
        | error e =>
          rw [hm] at h
          cases h
          obtain ⟨a, -, ha⟩ := exceptMapM_error hm
          rcases npQuantile_error ha with h1 | h1 <;> cases h1
        | ok rs =>
          rw [hm] at h
          cases h
    · rintro ⟨h, -⟩; cases h
  | explicit pts =>
    unfold createCutsH
    constructor
    · intro h; cases h
    · rintro ⟨h, -⟩; cases h

theorem createCutsB_invalidRange_iff (fns : RealFns) (x : List ℚ) (cuts : Cuts) (ncuts : ℤ)
    (ep : ℚ × ℚ) :
    createCutsB fns x cuts ncuts ep = .error .invalidRange ↔
      (cuts = .log ∧ ep.1 ≤ 0) := by
  cases cuts with
  | linear =>
    unfold createCutsB
    constructor
    · intro h
      have := linspace_error h
      cases this
    · rintro ⟨h, -⟩; cases h
  | log =>
    unfold createCutsB
    split_ifs with hc
    · simp [hc]
    · constructor
      · intro h
        cases hl : linspace (npSign ep.1 * fns.log10 |ep.1|) (npSign ep.2 * fns.log10 |ep.2|) ncuts with
        | error e =>
          rw [hl] at h
          simp only [Bind.bind, Except.bind] at h
          cases h
          cases linspace_error hl
        | ok l =>
          rw [hl] at h
          simp only [Bind.bind, Except.bind] at h
          cases h
      · rintro ⟨-, h⟩; exact absurd h hc
  | logp1 =>
    unfold createCutsB
    constructor
    · intro h
      cases hl : linspace (npSign ep.1 * fns.log10 (|ep.1| + 1))
          (npSign ep.2 * fns.log10 (|ep.2| + 1)) ncuts with
      | error e =>
        rw [hl] at h
        simp only [Bind.bind, Except.bind] at h
        cases h
        cases linspace_error hl
      | ok l =>
        rw [hl] at h
        simp only [Bind.bind, Except.bind] at h
        cases h
    · rintro ⟨h, -⟩; cases h
  | quantile =>
    unfold createCutsB
    constructor
    · intro h
      cases hl : linspace 0 1 ncuts with
      | error e =>
        rw [hl] at h
        simp only [Bind.bind, Except.bind] at h
        cases h
        cases linspace_error hl
      | ok qs =>
        rw [hl] at h
        simp only [Bind.bind, Except.bind] at h
        cases hm : List.mapM (npQuantile x) qs with
        | error e =>
          rw [hm] at h
          cases h
          obtain ⟨a, -, ha⟩ := exceptMapM_error hm
          rcases npQuantile_error ha with h1 | h1 <;> cases h1
        | ok rs =>
          rw [hm] at h
          cases h
    · rintro ⟨h, -⟩; cases h
  | explicit pts =>
    unfold createCutsB
    constructor
    · intro h; cases h
    · rintro ⟨h, -⟩; cases h

theorem cutpoints_ok_elim {fns : RealFns} {x : List ℚ} {qntl : Option (ℚ × ℚ)}
    {cuts : Cuts} {ncuts sig : ℤ} {cf : List ℚ}
    (h : cutpoints fns x qntl cuts ncuts sig = .ok cf) :
    x ≠ [] ∧ ∃ ep c,
      epOf x qntl (floorSig sig (listMin x)) (ceilSig sig (listMax x)) = .ok ep ∧
      createCutsB fns x cuts ncuts ep = .ok c ∧
      cf = finalizeCuts sig (floorSig sig (listMin x)) (ceilSig sig (listMax x)) c := by
  unfold cutpoints at h
  split_ifs at h with hx
  dsimp only [] at h
  refine ⟨hx, ?_⟩
  cases hep : epOf x qntl (floorSig sig (listMin x)) (ceilSig sig (listMax x)) with
  | error e => rw [hep] at h; simp only [Bind.bind, Except.bind] at h; cases h
  | ok ep =>
    rw [hep] at h
    simp only [Bind.bind, Except.bind] at h
    cases hc : createCutsB fns x cuts ncuts ep with
    | error e => rw [hc] at h; simp only [Except.bind] at h; cases h
    | ok c =>
      rw [hc] at h
      simp only [Except.bind, Except.ok.injEq] at h
      exact ⟨ep, c, rfl, hc, h.symm⟩

theorem numericVarCutpoints_invalidRange_iff (fns : RealFns) (ncuts : ℤ) {x : List ℚ}
    {qntl : Option (ℚ × ℚ)} {sig : ℤ} {ep : ℚ × ℚ} (hx : x ≠ [])
    (hep : epOf x qntl (floorSig sig (listMin x)) (ceilSig sig (listMax x)) = .ok ep)
    (cuts : Cuts) :
    numericVarCutpoints fns x qntl cuts ncuts sig = .error .invalidRange ↔
      (cuts = .log ∧ (ep.1 = 0 ∨ ep.2 = 0)) := by
  unfold numericVarCutpoints
  rw [if_neg hx]
  dsimp only []
  rw [hep]
  simp only [Bind.bind, Except.bind]
  cases hc : createCutsH fns x cuts ncuts ep with
  | error e =>
    simp only [Except.bind]
    constructor
    · intro h
      rw [Except.error.injEq] at h
      subst h
      exact (createCutsH_invalidRange_iff fns x cuts ncuts ep).mp hc
    · intro h
      have h2 := (createCutsH_invalidRange_iff fns x cuts ncuts ep).mpr h
      rw [hc] at h2
      rw [Except.error.injEq] at h2
      rw [h2]
  | ok c =>
    simp only [Except.bind]
    constructor
    · intro h
      cases hm : List.mapM (fun i => humanReadableNum i sig)
          (finalizeCuts sig (floorSig sig (listMin x)) (ceilSig sig (listMax x)) c) with
      | error e2 =>
        rw [hm] at h
        simp only [Except.bind] at h
        rw [Except.error.injEq] at h
        subst h
        obtain ⟨a, -, ha⟩ := exceptMapM_error hm
        unfold humanReadableNum at ha
        cases human_readable_num_error ha
      | ok fs =>
        rw [hm] at h
        simp only [Except.bind] at h
        cases h
    · intro h
      have h2 := (createCutsH_invalidRange_iff fns x cuts ncuts ep).mpr h
      rw [hc] at h2
      cases h2

theorem cutpoints_invalidRange_iff (fns : RealFns) (ncuts : ℤ) {x : List ℚ}
    {qntl : Option (ℚ × ℚ)} {sig : ℤ} {ep : ℚ × ℚ} (hx : x ≠ [])
    (hep : epOf x qntl (floorSig sig (listMin x)) (ceilSig sig (listMax x)) = .ok ep)
    (cuts : Cuts) :
    cutpoints fns x qntl cuts ncuts sig = .error .invalidRange ↔
      (cuts = .log ∧ ep.1 ≤ 0) := by
  unfold cutpoints
  rw [if_neg hx]
  dsimp only []
  rw [hep]
  simp only [Bind.bind, Except.bind]
  cases hc : createCutsB fns x cuts ncuts ep with
  | error e =>
    simp only [Except.bind]
    constructor
    · intro h
      rw [Except.error.injEq] at h
      subst h
      exact (createCutsB_invalidRange_iff fns x cuts ncuts ep).mp hc
    · intro h
      have h2 := (createCutsB_invalidRange_iff fns x cuts ncuts ep).mpr h
      rw [hc] at h2
      rw [Except.error.injEq] at h2
      rw [h2]
  | ok c =>
    simp only [Except.bind]
    constructor
    · intro h
      cases h
    · intro h
      have h2 := (createCutsB_invalidRange_iff fns x cuts ncuts ep).mpr h
      rw [hc] at h2
      cases h2

theorem finalizeCuts_props {s : ℤ} (hs : 1 ≤ s) {lb ub : ℚ}
    (hfl : roundSig s lb = lb) (hfu : roundSig s ub = ub) (hlu : lb ≤ ub)
    {c : List ℚ} (hc : ∀ z ∈ c, lb ≤ z ∧ z ≤ ub) :
    lb ∈ finalizeCuts s lb ub c ∧ ub ∈ finalizeCuts s lb ub c ∧
    (∀ y ∈ finalizeCuts s lb ub c, lb ≤ y ∧ y ≤ ub) ∧
    (finalizeCuts s lb ub c).head? = some lb ∧
    (finalizeCuts s lb ub c).getLast? = some ub := by
  have hmem_lb : lb ∈ finalizeCuts s lb ub c := finalizeCuts_mem.mpr ⟨lb, Or.inl rfl, hfl⟩
  have hmem_ub : ub ∈ finalizeCuts s lb ub c :=
    finalizeCuts_mem.mpr ⟨ub, Or.inr (Or.inr rfl), hfu⟩
  have hbd : ∀ y ∈ finalizeCuts s lb ub c, lb ≤ y ∧ y ≤ ub := by
    intro y hy
    obtain ⟨z, hz, rfl⟩ := finalizeCuts_mem.mp hy
    have hzb : lb ≤ z ∧ z ≤ ub := by
      rcases hz with rfl | hz | rfl
      · exact ⟨le_refl _, hlu⟩
      · exact hc z hz
      · exact ⟨hlu, le_refl _⟩
    constructor
    · calc lb = roundSig s lb := hfl.symm
        _ ≤ roundSig s z := roundSig_mono hs hzb.1
    · calc roundSig s z ≤ roundSig s ub := roundSig_mono hs hzb.2
        _ = ub := hfu
  refine ⟨hmem_lb, hmem_ub, hbd, ?_, ?_⟩
  · exact sorted_head?_eq (finalizeCuts_sorted s lb ub c) hmem_lb (fun y hy => (hbd y hy).1)
  · exact sorted_getLast?_eq (finalizeCuts_sorted s lb ub c) hmem_ub (fun y hy => (hbd y hy).2)

theorem two_mem_length {l : List ℚ} {a b : ℚ} (ha : a ∈ l) (hb : b ∈ l) (hab : a ≠ b) :
    2 ≤ l.length := by
  cases l with
  | nil => simp at ha
  | cons c t =>
    cases t with
    | nil =>
      simp only [List.mem_singleton] at ha hb
      exact absurd (ha.trans hb.symm) hab
    | cons d t2 => simp

theorem epOf_bounds {x : List ℚ} {qntl : Option (ℚ × ℚ)} {lb ub : ℚ} {ep : ℚ × ℚ}
    (hlb : lb ≤ listMin x) (hub : listMax x ≤ ub) (hlu : lb ≤ ub)
    (h : epOf x qntl lb ub = .ok ep) :
    (lb ≤ ep.1 ∧ ep.1 ≤ ub) ∧ (lb ≤ ep.2 ∧ ep.2 ≤ ub) := by
  unfold epOf at h
  cases qntl with
  | none =>
    rw [Except.ok.injEq] at h
    subst h
    exact ⟨⟨le_refl _, hlu⟩, ⟨hlu, le_refl _⟩⟩
  | some p =>
    obtain ⟨lo, hi⟩ := p
    dsimp only [] at h
    cases h0 : npQuantile x lo with
    | error e => rw [h0] at h; simp only [Bind.bind, Except.bind] at h; cases h
    | ok e0 =>
      rw [h0] at h
      simp only [Bind.bind, Except.bind] at h
      cases h1 : npQuantile x hi with
      | error e => rw [h1] at h; simp only [Except.bind] at h; cases h
      | ok e1 =>
        rw [h1] at h
        simp only [Except.bind, Except.ok.injEq] at h
        subst h
        obtain ⟨hq0a, hq0b⟩ := npQuantile_bounds h0
        obtain ⟨hq1a, hq1b⟩ := npQuantile_bounds h1
        exact ⟨⟨le_trans hlb hq0a, le_trans hq0b hub⟩,
          ⟨le_trans hlb hq1a, le_trans hq1b hub⟩⟩

theorem createCutsH_linear_bounds {fns : RealFns} {x : List ℚ} {ncuts : ℤ} {ep : ℚ × ℚ}
    {c : List ℚ} {lb ub : ℚ} (h : createCutsH fns x .linear ncuts ep = .ok c)
    (h1 : lb ≤ ep.1 ∧ ep.1 ≤ ub) (h2 : lb ≤ ep.2 ∧ ep.2 ≤ ub) :
    ∀ z ∈ c, lb ≤ z ∧ z ≤ ub := by
  unfold createCutsH at h
  intro z hz
  obtain ⟨hmin, hmax⟩ := linspace_mem h z hz
  constructor
  · calc lb ≤ min ep.1 ep.2 := le_min h1.1 h2.1
      _ ≤ z := hmin
  · calc z ≤ max ep.1 ep.2 := hmax
      _ ≤ ub := max_le h1.2 h2.2

theorem createCutsB_linear_bounds {fns : RealFns} {x : List ℚ} {ncuts : ℤ} {ep : ℚ × ℚ}
    {c : List ℚ} {lb ub : ℚ} (h : createCutsB fns x .linear ncuts ep = .ok c)
    (h1 : lb ≤ ep.1 ∧ ep.1 ≤ ub) (h2 : lb ≤ ep.2 ∧ ep.2 ≤ ub) :
    ∀ z ∈ c, lb ≤ z ∧ z ≤ ub := by
  unfold createCutsB at h
  intro z hz
  obtain ⟨hmin, hmax⟩ := linspace_mem h z hz
  constructor
  · calc lb ≤ min ep.1 ep.2 := le_min h1.1 h2.1
      _ ≤ z := hmin
  · calc z ≤ max ep.1 ep.2 := hmax
      _ ≤ ub := max_le h1.2 h2.2

theorem npQuantile_ok_shape {x : List ℚ} {q : ℚ} (hx : x ≠ []) (h0 : 0 ≤ q) (h1 : q ≤ 1) :
    ∃ r, npQuantile x q = .ok r := by
  unfold npQuantile
  rw [if_neg hx, if_neg (by push_neg; constructor <;> linarith)]
  exact ⟨_, rfl⟩

theorem npQuantile_bad {x : List ℚ} {q : ℚ} (hx : x ≠ []) (hq : q < 0 ∨ 1 < q) :
    npQuantile x q = .error .quantileRange := by
  unfold npQuantile
  rw [if_neg hx, if_pos hq]

theorem epOf_bad {x : List ℚ} {lo hi lb ub : ℚ} (hx : x ≠ [])
    (hbad : lo < 0 ∨ 1 < lo ∨ hi < 0 ∨ 1 < hi) :
    epOf x (some (lo, hi)) lb ub = .error .quantileRange := by
  unfold epOf
  dsimp only []
  by_cases hlo : lo < 0 ∨ 1 < lo
  · rw [npQuantile_bad hx hlo]
    rfl
  · have hlo2 : 0 ≤ lo ∧ lo ≤ 1 := by
      push_neg at hlo
      exact ⟨hlo.1, hlo.2⟩
    obtain ⟨r, hr⟩ := npQuantile_ok_shape hx hlo2.1 hlo2.2
    rw [hr]
    simp only [Bind.bind, Except.bind]
    have hhi : hi < 0 ∨ 1 < hi := by
      rcases hbad with h | h | h | h
      · exact absurd h (by linarith [hlo2.1])
      · exact absurd h (by push_neg; exact hlo2.2)
      · exact Or.inl h
      · exact Or.inr h
    rw [npQuantile_bad hx hhi]

theorem generators_quantileRange {fns : RealFns} {x : List ℚ} {lo hi : ℚ}
    {cuts : Cuts} {ncuts sig : ℤ} (hx : x ≠ [])
    (hbad : lo < 0 ∨ 1 < lo ∨ hi < 0 ∨ 1 < hi) :
    numericVarCutpoints fns x (some (lo, hi)) cuts ncuts sig = .error .quantileRange ∧
    cutpoints fns x (some (lo, hi)) cuts ncuts sig = .error .quantileRange := by
  constructor
  · unfold numericVarCutpoints
    rw [if_neg hx]
    dsimp only []
    rw [epOf_bad hx hbad]
    rfl
  · unfold cutpoints
    rw [if_neg hx]
    dsimp only []
    rw [epOf_bad hx hbad]
    rfl

theorem numericVarCutpoints_linear_ok {fns : RealFns} {x : List ℚ} {lo hi : ℚ} {ncuts : ℤ}
    (hx : x ≠ []) (hlo0 : 0 ≤ lo) (hlo1 : lo ≤ 1) (hhi0 : 0 ≤ hi) (hhi1 : hi ≤ 1)
    (hn : 0 ≤ ncuts) :
    ∃ r, numericVarCutpoints fns x (some (lo, hi)) .linear ncuts 3 = .ok r := by
  unfold numericVarCutpoints
  rw [if_neg hx]
  dsimp only []
  obtain ⟨e0, he0⟩ := npQuantile_ok_shape hx hlo0 hlo1
  obtain ⟨e1, he1⟩ := npQuantile_ok_shape hx hhi0 hhi1
  have hep : epOf x (some (lo, hi)) (floorSig 3 (listMin x)) (ceilSig 3 (listMax x))
      = .ok (e0, e1) := by
    unfold epOf
    dsimp only []
    rw [he0]
    simp only [Bind.bind, Except.bind]
    rw [he1]
  rw [hep]
  simp only [Bind.bind, Except.bind]
  have hlin : createCutsH fns x .linear ncuts (e0, e1) =
      .ok ((List.range ncuts.toNat).map fun i : ℕ =>
        e0 + (i : ℚ) * (e1 - e0) / ((ncuts : ℚ) - 1)) := by
    unfold createCutsH linspace
    rw [if_neg (by omega)]
  rw [hlin]
  simp only [Except.bind]
  obtain ⟨fs, hfs⟩ := exceptMapM_ok_exists (f := fun i => humanReadableNum i 3)
    (l := finalizeCuts 3 (floorSig 3 (listMin x)) (ceilSig 3 (listMax x))
      ((List.range ncuts.toNat).map fun i : ℕ => e0 + (i : ℚ) * (e1 - e0) / ((ncuts : ℚ) - 1)))
    (fun a _ => human_readable_num_ok_s3 a)
  rw [hfs]
  exact ⟨_, rfl⟩

/-! ### Digit-string lemmas -/

theorem toNat_digitChar {d : ℕ} (h : d < 10) : (digitChar d).toNat = 48 + d := by
  interval_cases d <;> decide

theorem isDigit_digitChar {d : ℕ} (h : d < 10) : (digitChar d).isDigit = true := by
  interval_cases d <;> decide

theorem natStrAux_isDigit : ∀ fuel n, ∀ c ∈ natStrAux fuel n, c.isDigit = true := by
  intro fuel
  induction fuel with
  | zero => intro n c hc; simp [natStrAux] at hc
  | succ fuel ih =>
    intro n c hc
    by_cases h10 : n < 10
    · simp [natStrAux, h10] at hc
      exact hc ▸ isDigit_digitChar h10
    · simp [natStrAux, h10] at hc
      rcases hc with hc | hc
      · exact ih _ _ hc
      · exact hc ▸ isDigit_digitChar (Nat.mod_lt _ (by omega))

theorem beq_false_of_isDigit_dot {c : Char} (h : c.isDigit = true) : (c == '.') = false := by
  refine beq_eq_false_iff_ne.mpr ?_
  intro hc
  subst hc
  exact absurd h (by decide)

theorem beq_false_of_isDigit_colon {c : Char} (h : c.isDigit = true) : (c == ':') = false := by
  refine beq_eq_false_iff_ne.mpr ?_
  intro hc
  subst hc
  exact absurd h (by decide)

theorem natStrAux_length_le : ∀ fuel n p, n < fuel → 1 ≤ p → n < 10 ^ p →
    (natStrAux fuel n).length ≤ p := by
  intro fuel
  induction fuel with
  | zero => intro n p h; omega
  | succ fuel ih =>
    intro n p hn hp hnp
    by_cases h10 : n < 10
    · simp [natStrAux, h10]
      omega
    · have hp2 : 2 ≤ p := by
        by_contra hlt
        have hpe : p = 1 := by omega
        subst hpe
        simp at hnp
        omega
      have hpow : 10 ^ (p - 1) * 10 = 10 ^ p := by
        conv_rhs => rw [show p = (p - 1) + 1 by omega]
        rw [pow_succ]
      have hdiv : n / 10 < 10 ^ (p - 1) :=
        Nat.div_lt_of_lt_mul (by omega)
      have hfl : n / 10 < fuel := by
        have := Nat.div_lt_self (by omega : 0 < n) (by omega : 1 < 10)
        omega
      have hlen := ih (n / 10) (p - 1) hfl (by omega) hdiv
      simp [natStrAux, h10]
      omega

theorem natStrAux_foldl : ∀ fuel n, n < fuel → ∀ a : ℕ,
    (natStrAux fuel n).foldl (fun a c => 10 * a + (c.toNat - 48)) a
      = a * 10 ^ (natStrAux fuel n).length + n := by
  intro fuel
  induction fuel with
  | zero => intro n h; omega
  | succ fuel ih =>
    intro n hn a
    by_cases h10 : n < 10
    · simp [natStrAux, h10, toNat_digitChar h10]
      omega
    · have hfl : n / 10 < fuel := by
        have := Nat.div_lt_self (by omega : 0 < n) (by omega : 1 < 10)
        omega
      simp only [natStrAux, h10, if_false, List.foldl_append, List.foldl_cons,
        List.foldl_nil, List.length_append, List.length_cons, List.length_nil]
      rw [ih _ hfl a, toNat_digitChar (Nat.mod_lt _ (by omega)), pow_succ]
      have := Nat.div_add_mod n 10
      rw [← mul_assoc]
      omega

theorem parseDigits_natStr (n : ℕ) : parseDigits (natStr n).data = n := by
  have h := natStrAux_foldl (n + 1) n (by omega) 0
  simpa [parseDigits, natStr] using h

theorem parseDigits_replicate_zero_append (k : ℕ) (l : List Char) :
    parseDigits (List.replicate k '0' ++ l) = parseDigits l := by
  induction k with
  | zero => rfl
  | succ k ih =>
    rw [List.replicate_succ, List.cons_append]
    show List.foldl _ (10 * 0 + ('0'.toNat - 48)) _ = _
    have h0 : 10 * 0 + ('0'.toNat - 48) = 0 := by decide
    rw [h0]
    exact ih

theorem takeWhile_append_all {α : Type} (p : α → Bool) :
    ∀ l₁ l₂ : List α, (∀ c ∈ l₁, p c = true) →
      (l₁ ++ l₂).takeWhile p = l₁ ++ l₂.takeWhile p := by
  intro l₁
  induction l₁ with
  | nil => intro l₂ h; rfl
  | cons a l ih =>
    intro l₂ h
    rw [List.cons_append, List.takeWhile_cons_of_pos (h a (List.mem_cons_self a l)),
      ih l₂ (fun c hc => h c (List.mem_cons_of_mem a hc)), List.cons_append]

theorem dropWhile_append_all {α : Type} (p : α → Bool) :
    ∀ l₁ l₂ : List α, (∀ c ∈ l₁, p c = true) →
      (l₁ ++ l₂).dropWhile p = l₂.dropWhile p := by
  intro l₁
  induction l₁ with
  | nil => intro l₂ h; rfl
  | cons a l ih =>
    intro l₂ h
    rw [List.cons_append, List.dropWhile_cons_of_pos (h a (List.mem_cons_self a l)),
      ih l₂ (fun c hc => h c (List.mem_cons_of_mem a hc))]

theorem dropWhile_eq_nil_all {α : Type} (p : α → Bool) :
    ∀ l : List α, (∀ c ∈ l, p c = true) → l.dropWhile p = [] := by
  intro l
  induction l with
  | nil => intro h; rfl
  | cons a l ih =>
    intro h
    rw [List.dropWhile_cons_of_pos (h a (List.mem_cons_self a l)),
      ih (fun c hc => h c (List.mem_cons_of_mem a hc))]

theorem zfill_isDigit {s : String} (w : ℕ) (h : ∀ c ∈ s.data, c.isDigit = true) :
    ∀ c ∈ (zfill w s).data, c.isDigit = true := by
  intro c hc
  simp only [zfill, List.mem_append] at hc
  rcases hc with hc | hc
  · rcases List.eq_of_mem_replicate hc with rfl
    decide
  · exact h c hc

theorem zfill_length {s : String} {w : ℕ} (h : s.data.length ≤ w) :
    (zfill w s).data.length = w := by
  simp only [zfill, List.length_append, List.length_replicate]
  omega

/-- The core of decimalsOf on a string of the shape prefix ++ point ++
fraction ++ suffix. -/
theorem decimalsOf_core (pre fpd ud : List Char)
    (hpre : ∀ c ∈ pre, (c == '.') = false)
    (hfpd : ∀ c ∈ fpd, c.isDigit = true)
    (hud : ud.takeWhile Char.isDigit = []) :
    ((((pre ++ '.' :: (fpd ++ ud)).dropWhile (fun c => !(c == '.'))).drop 1).takeWhile
      Char.isDigit).length = fpd.length := by
  rw [dropWhile_append_all _ pre _ (fun c hc => by simp [hpre c hc])]
  rw [List.dropWhile_cons_of_neg (by simp)]
  rw [List.drop_one, List.tail_cons]
  rw [takeWhile_append_all _ fpd ud hfpd, hud, List.append_nil]

/-- decimalsOf of a dot-free character list is zero. -/
theorem decimalsOf_nodot (l : List Char) (h : ∀ c ∈ l, (c == '.') = false) :
    (((l.dropWhile (fun c => !(c == '.'))).drop 1).takeWhile Char.isDigit).length = 0 := by
  rw [dropWhile_eq_nil_all _ l (fun c hc => by simp [h c hc])]
  rfl

theorem natStr_isDigit (n : ℕ) : ∀ c ∈ (natStr n).data, c.isDigit = true :=
  natStrAux_isDigit (n + 1) n

/-- decimalsOf of a fixed-point rendering followed by a benign suffix is the
requested precision. -/
theorem decimalsOf_pyFixedRaw_append (q : ℚ) (p : ℕ) (u : String)
    (hu1 : ∀ c ∈ u.data, (c == '.') = false)
    (hu2 : u.data.takeWhile Char.isDigit = []) :
    decimalsOf (pyFixedRaw q p ++ u) = p := by
  have hipd : ∀ c ∈ (natStr (roundHalfEven (|q| * 10 ^ p) / (10 : ℤ) ^ p).toNat).data,
      (c == '.') = false :=
    fun c hc => beq_false_of_isDigit_dot (natStr_isDigit _ c hc)
  by_cases hp : p = 0
  · subst hp
    have hall : ∀ c ∈ (pyFixedRaw q 0 ++ u).data, (c == '.') = false := by
      intro c hc
      simp only [pyFixedRaw, pow_zero, String.data_append] at hc
      rcases List.mem_append.mp hc with hc | hc
      · split at hc
        · simp only [String.data_append] at hc
          rcases List.mem_append.mp hc with hc | hc
          · simp at hc
            subst hc
            decide
          · exact hipd c (by simpa using hc)
        · exact hipd c (by simpa using hc)
      · exact hu1 c hc
    unfold decimalsOf
    exact decimalsOf_nodot _ hall
  · have hfrac : (roundHalfEven (|q| * 10 ^ p) % (10 : ℤ) ^ p).toNat < 10 ^ p := by
      have hpos : (0 : ℤ) < (10 : ℤ) ^ p := by positivity
      have h1 : 0 ≤ roundHalfEven (|q| * 10 ^ p) % (10 : ℤ) ^ p :=
        Int.emod_nonneg _ (by omega)
      have h2 : roundHalfEven (|q| * 10 ^ p) % (10 : ℤ) ^ p < (10 : ℤ) ^ p :=
        Int.emod_lt_of_pos _ hpos
      have h3 : ((10 : ℤ) ^ p) = ((10 ^ p : ℕ) : ℤ) := by push_cast; ring
      omega
    have hfplen : (zfill p (natStr (roundHalfEven (|q| * 10 ^ p) % (10 : ℤ) ^ p).toNat)).data.length
        = p := by
      refine zfill_length ?_
      exact natStrAux_length_le _ _ p (by omega) (by omega) hfrac
    have hfpdig : ∀ c ∈ (zfill p (natStr (roundHalfEven (|q| * 10 ^ p) % (10 : ℤ) ^ p).toNat)).data,
        c.isDigit = true :=
      zfill_isDigit p (natStr_isDigit _)
    have hdata : (pyFixedRaw q p ++ u).data =
        ((if q < 0 then ['-'] else []) ++ (natStr (roundHalfEven (|q| * 10 ^ p) / (10 : ℤ) ^ p).toNat).data)
          ++ '.' :: ((zfill p (natStr (roundHalfEven (|q| * 10 ^ p) % (10 : ℤ) ^ p).toNat)).data ++ u.data) := by
      simp only [pyFixedRaw, if_neg hp, String.data_append]
      split
      · simp [String.data_append]
      · simp [String.data_append]
    unfold decimalsOf
    rw [hdata]
    rw [decimalsOf_core _ _ _ ?_ hfpdig hu2]
    · exact hfplen
    · intro c hc
      rcases List.mem_append.mp hc with hc | hc
      · split at hc
        · simp at hc
          subst hc
          decide
        · simp at hc
      · exact hipd c hc

theorem intStr_nodot (z : ℤ) : ∀ c ∈ (intStr z).data, (c == '.') = false := by
  intro c hc
  unfold intStr at hc
  split at hc
  · simp only [String.data_append] at hc
    rcases List.mem_append.mp hc with hc | hc
    · simp at hc
      subst hc
      decide
    · exact beq_false_of_isDigit_dot (natStr_isDigit _ c hc)
  · exact beq_false_of_isDigit_dot (natStr_isDigit _ c hc)

/-- Every possible unit suffix of the large-number branch contains no decimal
point and starts with a non-digit (or is empty). -/
theorem unit_ok {u : String}
    (h : (∃ z : ℤ, u = "E" ++ intStr z) ∨ ∃ i : ℕ, u = unitsList.getD i "") :
    (∀ c ∈ u.data, (c == '.') = false) ∧ u.data.takeWhile Char.isDigit = [] := by
  rcases h with ⟨z, rfl⟩ | ⟨i, rfl⟩
  · constructor
    · intro c hc
      simp only [String.data_append] at hc
      rcases List.mem_append.mp hc with hc | hc
      · simp at hc
        subst hc
        decide
      · exact intStr_nodot z c hc
    · have hdata : ("E" ++ intStr z).data = 'E' :: (intStr z).data := by
        simp [String.data_append]
      rw [hdata, List.takeWhile_cons_of_neg (by decide)]
  · match i with
    | 0 => exact ⟨by decide, by decide⟩
    | 1 => exact ⟨by decide, by decide⟩
    | 2 => exact ⟨by decide, by decide⟩
    | 3 => exact ⟨by decide, by decide⟩
    | 4 => exact ⟨by decide, by decide⟩
    | 5 => exact ⟨by decide, by decide⟩
    | n + 6 =>
      rw [List.getD_eq_default _ _ (by simp [unitsList])]
      exact ⟨by decide, by decide⟩

theorem bind_append_ok {r : Except PyErr String} {u str : String}
    (h : Except.bind r (fun t => Except.ok (t ++ u)) = .ok str) :
    ∃ t, r = .ok t ∧ str = t ++ u := by
  cases r with
  | error e => exact absurd h (by simp [Except.bind])
  | ok t =>
    refine ⟨t, rfl, ?_⟩
    simp only [Except.bind, Except.ok.injEq] at h
    exact h.symm

theorem pyFixed_ok_elim {q : ℚ} {p : ℤ} {t : String} (h : pyFixed q p = .ok t) :
    0 ≤ p ∧ t = pyFixedRaw q p.toNat := by
  unfold pyFixed at h
  split at h
  · cases h
  · rename_i hp
    simp only [Except.ok.injEq] at h
    exact ⟨by omega, h.symm⟩

/-- A successful precision-k format-and-append step forces k nonnegative and
fixes the decimal count of the output to k. -/
theorem decimalsOf_branch {fn : ℚ} {k : ℤ} {u str : String}
    (hu : (∀ c ∈ u.data, (c == '.') = false) ∧ u.data.takeWhile Char.isDigit = [])
    (h : Except.bind (pyFixed fn k) (fun t => Except.ok (t ++ u)) = Except.ok str) :
    0 ≤ k ∧ (decimalsOf str : ℤ) = k := by
  obtain ⟨t, hr, rfl⟩ := bind_append_ok h
  obtain ⟨hk, rfl⟩ := pyFixed_ok_elim hr
  refine ⟨hk, ?_⟩
  rw [decimalsOf_pyFixedRaw_append _ _ _ hu.1 hu.2]
  exact_mod_cast congrArg (fun z : ℤ => z) (Int.toNat_of_nonneg hk)

/-- The ordinal prefix of a constructed bin label recovers its ordinal. -/
theorem ordOf_mkLabel (n : ℕ) (content : String) : ordOf (mkLabel n content) = n := by
  unfold ordOf mkLabel
  have hdata : (zfill 2 (natStr n) ++ ": " ++ content).data =
      (List.replicate (2 - (natStr n).data.length) '0' ++ (natStr n).data)
        ++ ':' :: (' ' :: content.data) := by
    simp [String.data_append, zfill]
  rw [hdata]
  rw [takeWhile_append_all _ _ _ ?_]
  · rw [List.takeWhile_cons_of_neg (by decide), List.append_nil,
      parseDigits_replicate_zero_append]
    exact parseDigits_natStr n
  · intro c hc
    rcases List.mem_append.mp hc with hc | hc
    · rcases List.eq_of_mem_replicate hc with rfl
      decide
    · simp [beq_false_of_isDigit_colon (natStr_isDigit n c hc)]

/-! ### Descending index removal -/

theorem insertDesc_perm (a : ℕ) : ∀ l : List ℕ, List.Perm (insertDesc a l) (a :: l) := by
  intro l
  induction l with
  | nil => exact List.Perm.refl _
  | cons b t ih =>
    rw [insertDesc]
    split
    · exact List.Perm.refl _
    · exact (List.Perm.cons b ih).trans (List.Perm.swap a b t)

theorem sortDesc_perm (l : List ℕ) : List.Perm (sortDesc l) l := by
  induction l with
  | nil => exact List.Perm.refl _
  | cons a t ih =>
    exact (insertDesc_perm a (sortDesc t)).trans (List.Perm.cons a ih)

theorem insertDesc_sorted (a : ℕ) :
    ∀ l : List ℕ, l.Pairwise (fun x y => y ≤ x) →
      (insertDesc a l).Pairwise (fun x y => y ≤ x) := by
  intro l
  induction l with
  | nil => intro h; exact List.pairwise_singleton _ _
  | cons b t ih =>
    intro h
    rw [List.pairwise_cons] at h
    rw [insertDesc]
    split
    · rename_i hba
      rw [List.pairwise_cons]
      constructor
      · intro x hx
        rcases List.mem_cons.mp hx with rfl | hx
        · omega
        · have := h.1 x hx
          omega
      · exact List.pairwise_cons.mpr h
    · rename_i hba
      rw [List.pairwise_cons]
      refine ⟨?_, ih h.2⟩
      intro x hx
      rcases List.mem_cons.mp ((insertDesc_perm a t).mem_iff.mp hx) with rfl | hx
      · omega
      · exact h.1 x hx

theorem sortDesc_sorted (l : List ℕ) : (sortDesc l).Pairwise (fun x y => y ≤ x) := by
  induction l with
  | nil => simp [sortDesc]
  | cons a t ih => exact insertDesc_sorted a (sortDesc t) ih

theorem sortDesc_strict {l : List ℕ} (h : l.Nodup) :
    (sortDesc l).Pairwise (fun x y => y < x) := by
  have hnd : (sortDesc l).Nodup := (sortDesc_perm l).nodup_iff.mpr h
  have := (sortDesc_sorted l).and hnd
  exact this.imp (fun hab => by omega)

theorem getElem?_eraseIdx_formula {α : Type} :
    ∀ (l : List α) (i j : ℕ),
      (l.eraseIdx i)[j]? = if j < i then l[j]? else l[j + 1]? := by
  intro l
  induction l with
  | nil => intro i j; simp [List.eraseIdx]
  | cons a t ih =>
    intro i j
    match i with
    | 0 =>
      show t[j]? = _
      rw [if_neg (Nat.not_lt_zero j), List.getElem?_cons_succ]
    | i' + 1 =>
      match j with
      | 0 => simp [List.eraseIdx]
      | j' + 1 =>
        show (a :: t.eraseIdx i')[j' + 1]? = _
        rw [List.getElem?_cons_succ, ih i' j']
        by_cases hj : j' < i'
        · rw [if_pos hj, if_pos (by omega), List.getElem?_cons_succ]
        · rw [if_neg hj, if_neg (by omega), List.getElem?_cons_succ]

/-- Deleting a strictly descending list of indices removes exactly the listed
positions: membership characterisation. -/
theorem delIdxs_mem_iff {α : Type} :
    ∀ (idxs : List ℕ) (l : List α), idxs.Pairwise (fun x y => y < x) →
      ∀ w : α, w ∈ delIdxs l idxs ↔ ∃ j : ℕ, l[j]? = some w ∧ j ∉ idxs := by
  intro idxs
  induction idxs with
  | nil =>
    intro l _ w
    simp only [delIdxs, List.foldl_nil, List.not_mem_nil, not_false_iff, and_true]
    exact List.mem_iff_getElem?
  | cons i rest ih =>
    intro l hp w
    rw [List.pairwise_cons] at hp
    have hstep : delIdxs l (i :: rest) = delIdxs (l.eraseIdx i) rest := rfl
    rw [hstep, ih (l.eraseIdx i) hp.2 w]
    constructor
    · rintro ⟨j, hj, hnr⟩
      rw [getElem?_eraseIdx_formula] at hj
      by_cases hji : j < i
      · rw [if_pos hji] at hj
        refine ⟨j, hj, ?_⟩
        intro hmem
        rcases List.mem_cons.mp hmem with rfl | hmem
        · omega
        · exact hnr hmem
      · rw [if_neg hji] at hj
        refine ⟨j + 1, hj, ?_⟩
        intro hmem
        rcases List.mem_cons.mp hmem with h | hmem
        · omega
        · have := hp.1 _ hmem
          omega
    · rintro ⟨j, hj, hn⟩
      have hji : j ≠ i := fun h => hn (h ▸ List.mem_cons_self i rest)
      by_cases hlt : j < i
      · refine ⟨j, ?_, ?_⟩
        · rw [getElem?_eraseIdx_formula, if_pos hlt]
          exact hj
        · exact fun hmem => hn (List.mem_cons_of_mem i hmem)
      · have hgt : i < j := by omega
        refine ⟨j - 1, ?_, ?_⟩
        · rw [getElem?_eraseIdx_formula, if_neg (by omega),
            show j - 1 + 1 = j by omega]
          exact hj
        · intro hmem
          have := hp.1 _ hmem
          omega

theorem delIdxs_length_eq {α β : Type} :
    ∀ (idxs : List ℕ) (l₁ : List α) (l₂ : List β), l₁.length = l₂.length →
      (delIdxs l₁ idxs).length = (delIdxs l₂ idxs).length := by
  intro idxs
  induction idxs with
  | nil => intro l₁ l₂ h; exact h
  | cons i rest ih =>
    intro l₁ l₂ h
    have h1 : (l₁.eraseIdx i).length = (l₂.eraseIdx i).length := by
      rw [List.length_eraseIdx, List.length_eraseIdx, h]
    exact ih (l₁.eraseIdx i) (l₂.eraseIdx i) h1

/-! ### The pair sorter: permutation facts -/

theorem insertPair_perm (a : ℚ × String) :
    ∀ l : List (ℚ × String), List.Perm (insertPair a l) (a :: l) := by
  intro l
  induction l with
  | nil => exact List.Perm.refl _
  | cons b t ih =>
    rw [insertPair]
    split
    · exact List.Perm.refl _
    · exact (List.Perm.cons b ih).trans (List.Perm.swap a b t)

theorem sortPairs_perm (l : List (ℚ × String)) : List.Perm (sortPairs l) l := by
  induction l with
  | nil => exact List.Perm.refl _
  | cons a t ih =>
    exact (insertPair_perm a (sortPairs t)).trans (List.Perm.cons a ih)

/-! ### Pair ordering -/

theorem pairLe_fst_le {a b : ℚ × String} (h : pairLe a b = true) : a.1 ≤ b.1 := by
  unfold pairLe at h
  split at h
  · rename_i hlt
    exact le_of_lt hlt
  · split at h
    · cases h
    · rename_i h2
      exact not_lt.mp h2

theorem not_pairLe_fst_le {a b : ℚ × String} (h : pairLe a b = false) : b.1 ≤ a.1 := by
  unfold pairLe at h
  split at h
  · cases h
  · rename_i h1
    exact le_of_not_lt h1

theorem insertPair_fst_sorted (a : ℚ × String) :
    ∀ l : List (ℚ × String), l.Pairwise (fun p q => p.1 ≤ q.1) →
      (insertPair a l).Pairwise (fun p q => p.1 ≤ q.1) := by
  intro l
  induction l with
  | nil => intro h; exact List.pairwise_singleton _ _
  | cons b t ih =>
    intro h
    rw [List.pairwise_cons] at h
    rw [insertPair]
    split
    · rename_i hab
      rw [List.pairwise_cons]
      constructor
      · intro x hx
        rcases List.mem_cons.mp hx with rfl | hx
        · exact pairLe_fst_le hab
        · exact le_trans (pairLe_fst_le hab) (h.1 x hx)
      · exact List.pairwise_cons.mpr h
    · rename_i hab
      rw [List.pairwise_cons]
      refine ⟨?_, ih h.2⟩
      intro x hx
      rcases List.mem_cons.mp ((insertPair_perm a t).mem_iff.mp hx) with rfl | hx
      · exact not_pairLe_fst_le (Bool.eq_false_iff.mpr hab)
      · exact h.1 x hx

theorem sortPairs_fst_sorted (l : List (ℚ × String)) :
    (sortPairs l).Pairwise (fun p q => p.1 ≤ q.1) := by
  induction l with
  | nil => exact List.Pairwise.nil
  | cons a t ih => exact insertPair_fst_sorted a (sortPairs t) ih

/-! ### String sorter permutation -/

theorem insertStr_perm (a : String) :
    ∀ l : List String, List.Perm (insertStr a l) (a :: l) := by
  intro l
  induction l with
  | nil => exact List.Perm.refl _
  | cons b t ih =>
    rw [insertStr]
    split
    · exact List.Perm.refl _
    · exact (List.Perm.cons b ih).trans (List.Perm.swap a b t)

theorem sortStrs_perm (l : List String) : List.Perm (sortStrs l) l := by
  induction l with
  | nil => exact List.Perm.refl _
  | cons a t ih =>
    exact (insertStr_perm a (sortStrs t)).trans (List.Perm.cons a ih)

/-! ### Graph lemmas: a Forall₂ relation transported along zip, eraseIdx, delIdxs -/

theorem forall₂_zip_mem {α β : Type} {G : α → β → Prop} :
    ∀ {l : List α} {r : List β}, List.Forall₂ G l r →
      ∀ p ∈ l.zip r, G p.1 p.2 := by
  intro l r h
  induction h with
  | nil => intro p hp; simp at hp
  | cons hab _ ih =>
    intro p hp
    rw [List.zip_cons_cons] at hp
    rcases List.mem_cons.mp hp with rfl | hp
    · exact hab
    · exact ih p hp

theorem forall₂_eraseIdx {α β : Type} {G : α → β → Prop} (i : ℕ) :
    ∀ {l : List α} {r : List β}, List.Forall₂ G l r →
      List.Forall₂ G (l.eraseIdx i) (r.eraseIdx i) := by
  induction i with
  | zero =>
    intro l r h
    cases h with
    | nil => exact List.Forall₂.nil
    | cons hab ht => exact ht
  | succ i ih =>
    intro l r h
    cases h with
    | nil => exact List.Forall₂.nil
    | cons hab ht => exact List.Forall₂.cons hab (ih ht)

theorem forall₂_delIdxs {α β : Type} {G : α → β → Prop} :
    ∀ (idxs : List ℕ) {l : List α} {r : List β}, List.Forall₂ G l r →
      List.Forall₂ G (delIdxs l idxs) (delIdxs r idxs) := by
  intro idxs
  induction idxs with
  | nil => intro l r h; exact h
  | cons i rest ih =>
    intro l r h
    exact ih (forall₂_eraseIdx i h)

/-! ### The label loop emits one point label per filtered pair, in order -/

theorem labelLoop_pls_forall₂ (pm : List ℚ) :
    ∀ (pairs : List (ℚ × String)) (i cntr : ℕ),
      List.Forall₂ (fun (L : String) (p : ℚ × String) => ∃ k, L = mkLabel k p.2)
        (labelLoop pm pairs i cntr).2
        (pairs.filter (fun p => decide (p.1 ∈ pm))) := by
  intro pairs
  induction pairs with
  | nil => intro i cntr; exact List.Forall₂.nil
  | cons a rest ih =>
    intro i cntr
    obtain ⟨v, f⟩ := a
    by_cases hv : v ∈ pm
    · simp only [labelLoop]
      rw [if_pos hv, if_pos hv, List.filter_cons_of_pos (by simpa using hv)]
      exact List.Forall₂.cons ⟨i + cntr + 1, rfl⟩ (ih (i + 1) (cntr + 1))
    · simp only [labelLoop]
      rw [if_neg hv, if_neg hv, List.filter_cons_of_neg (by simpa using hv)]
      simp only [List.nil_append]
      exact ih (i + 1) cntr

/-! ### Sorted-list extensionality -/

theorem sorted_lt_ext {l₁ l₂ : List ℚ} (h1 : l₁.Pairwise (· < ·)) (h2 : l₂.Pairwise (· < ·))
    (hm : ∀ x, x ∈ l₁ ↔ x ∈ l₂) : l₁ = l₂ := by
  haveI : IsAntisymm ℚ (· < ·) := ⟨fun a b ha hb => absurd hb (lt_asymm ha)⟩
  refine List.eq_of_perm_of_sorted ?_ h1 h2
  have hn1 : l₁.Nodup := h1.imp (fun h => ne_of_lt h)
  have hn2 : l₂.Nodup := h2.imp (fun h => ne_of_lt h)
  exact (List.perm_ext_iff_of_nodup hn1 hn2).mpr hm

theorem map_fst_filter_mem (pm : List ℚ) :
    ∀ l : List (ℚ × String),
      (l.filter (fun p => decide (p.1 ∈ pm))).map Prod.fst
        = (l.map Prod.fst).filter (fun x => decide (x ∈ pm)) := by
  intro l
  induction l with
  | nil => rfl
  | cons a t ih =>
    by_cases ha : a.1 ∈ pm
    · rw [List.filter_cons_of_pos (by simpa using ha), List.map_cons, List.map_cons,
        List.filter_cons_of_pos (by simpa using ha), ih]
    · rw [List.filter_cons_of_neg (by simpa using ha), List.map_cons,
        List.filter_cons_of_neg (by simpa using ha), ih]

/-- In the label machinery of _finalize_bins, when both format columns are the
graph of the formatter and the point masses are strictly sorted, the j-th
point-mass label is a numbered label carrying the format of the j-th point
mass. -/
theorem pairs_pm_alignment (sig : ℤ) (L1 : List ℚ) (L2 : List String)
    (pm : List ℚ) (pmf : List String)
    (h1 : List.Forall₂ (fun a b => human_readable_num a sig = .ok b) L1 L2)
    (h2 : List.Forall₂ (fun a b => human_readable_num a sig = .ok b) pm pmf)
    (hpm : pm.Pairwise (· < ·)) :
    ∀ j, (hj : j < pm.length) →
      ∃ k f, ((labelLoop pm (sortPairs (((L1 ++ pm).zip (L2 ++ pmf)).dedup)) 0 0).2).get? j
          = some (mkLabel k f)
        ∧ human_readable_num (pm.get ⟨j, hj⟩) sig = .ok f := by
  intro j hj
  have happend : ∀ {A1 : List ℚ} {A2 : List String} {B1 : List ℚ} {B2 : List String},
      List.Forall₂ (fun a b => human_readable_num a sig = .ok b) A1 A2 →
      List.Forall₂ (fun a b => human_readable_num a sig = .ok b) B1 B2 →
      List.Forall₂ (fun a b => human_readable_num a sig = .ok b) (A1 ++ B1) (A2 ++ B2) := by
    intro A1 A2 B1 B2 ha hb
    induction ha with
    | nil => exact hb
    | cons hx _ ih => exact List.Forall₂.cons hx ih
  have hG12 : List.Forall₂ (fun a b => human_readable_num a sig = .ok b)
      (L1 ++ pm) (L2 ++ pmf) := happend h1 h2
  have hGall : ∀ p ∈ sortPairs (((L1 ++ pm).zip (L2 ++ pmf)).dedup),
      human_readable_num p.1 sig = .ok p.2 := by
    intro p hp
    exact forall₂_zip_mem hG12 p
      (List.mem_dedup.mp ((sortPairs_perm _).mem_iff.mp hp))
  have hPnd : (sortPairs (((L1 ++ pm).zip (L2 ++ pmf)).dedup)).Nodup :=
    (sortPairs_perm _).nodup_iff.mpr (List.nodup_dedup _)
  have hfst_nd : ((sortPairs (((L1 ++ pm).zip (L2 ++ pmf)).dedup)).map Prod.fst).Nodup := by
    refine List.Nodup.map_on ?_ hPnd
    intro p hp q hq hpq
    have gp := hGall p hp
    have gq := hGall q hq
    rw [hpq] at gp
    rw [gp] at gq
    exact Prod.ext hpq.symm (Except.ok.inj gq).symm |>.symm
  have hfst_le : ((sortPairs (((L1 ++ pm).zip (L2 ++ pmf)).dedup)).map Prod.fst).Pairwise
      (· ≤ ·) :=
    List.pairwise_map.mpr (sortPairs_fst_sorted _)
  have hfst_lt : ((sortPairs (((L1 ++ pm).zip (L2 ++ pmf)).dedup)).map Prod.fst).Pairwise
      (· < ·) :=
    (hfst_le.and hfst_nd).imp (fun h => lt_of_le_of_ne h.1 h.2)
  have hmemS : ∀ x : ℚ, x ∈ (sortPairs (((L1 ++ pm).zip (L2 ++ pmf)).dedup)).map Prod.fst
      ↔ x ∈ L1 ++ pm := by
    intro x
    have hlen : (L1 ++ pm).length ≤ (L2 ++ pmf).length := by
      simp only [List.length_append]
      rw [h1.length_eq, h2.length_eq]
    constructor
    · intro hx
      rcases List.mem_map.mp hx with ⟨p, hp, hfx⟩
      have hz := List.mem_dedup.mp ((sortPairs_perm _).mem_iff.mp hp)
      rw [← List.map_fst_zip _ _ hlen]
      exact List.mem_map.mpr ⟨p, hz, hfx⟩
    · intro hx
      rw [← List.map_fst_zip _ _ hlen] at hx
      rcases List.mem_map.mp hx with ⟨p, hp, hfx⟩
      exact List.mem_map.mpr
        ⟨p, (sortPairs_perm _).mem_iff.mpr (List.mem_dedup.mpr hp), hfx⟩
  have hFilter : ((sortPairs (((L1 ++ pm).zip (L2 ++ pmf)).dedup)).map Prod.fst).filter
      (fun x => decide (x ∈ pm)) = pm := by
    refine sorted_lt_ext (hfst_lt.filter _) hpm ?_
    intro x
    rw [List.mem_filter]
    constructor
    · rintro ⟨-, hx⟩
      simpa using hx
    · intro hx
      exact ⟨(hmemS x).mpr (List.mem_append.mpr (Or.inr hx)), by simpa using hx⟩
  have hPfeq : ((sortPairs (((L1 ++ pm).zip (L2 ++ pmf)).dedup)).filter
      (fun p => decide (p.1 ∈ pm))).map Prod.fst = pm := by
    rw [map_fst_filter_mem]
    exact hFilter
  have hF2 := labelLoop_pls_forall₂ pm (sortPairs (((L1 ++ pm).zip (L2 ++ pmf)).dedup)) 0 0
  have hlenF : ((sortPairs (((L1 ++ pm).zip (L2 ++ pmf)).dedup)).filter
      (fun p => decide (p.1 ∈ pm))).length = pm.length := by
    have h := congrArg List.length hPfeq
    rw [List.length_map] at h
    exact h
  have hlenP : ((labelLoop pm (sortPairs (((L1 ++ pm).zip (L2 ++ pmf)).dedup)) 0 0).2).length
      = pm.length := by
    rw [hF2.length_eq, hlenF]
  have hjP : j < ((labelLoop pm (sortPairs (((L1 ++ pm).zip (L2 ++ pmf)).dedup)) 0 0).2).length := by
    omega
  have hjF : j < ((sortPairs (((L1 ++ pm).zip (L2 ++ pmf)).dedup)).filter
      (fun p => decide (p.1 ∈ pm))).length := by
    omega
  obtain ⟨k, hk⟩ := (List.forall₂_iff_get.mp hF2).2 j hjP hjF
  refine ⟨k, (((sortPairs (((L1 ++ pm).zip (L2 ++ pmf)).dedup)).filter
      (fun p => decide (p.1 ∈ pm))).get ⟨j, hjF⟩).2, ?_, ?_⟩
  · rw [List.get?_eq_get hjP, hk]
  · have hmemPf : ((sortPairs (((L1 ++ pm).zip (L2 ++ pmf)).dedup)).filter
        (fun p => decide (p.1 ∈ pm))).get ⟨j, hjF⟩
        ∈ (sortPairs (((L1 ++ pm).zip (L2 ++ pmf)).dedup)).filter
          (fun p => decide (p.1 ∈ pm)) := List.get_mem _ _ _
    have hG := hGall _ (List.mem_of_mem_filter hmemPf)
    have hfst : (((sortPairs (((L1 ++ pm).zip (L2 ++ pmf)).dedup)).filter
        (fun p => decide (p.1 ∈ pm))).get ⟨j, hjF⟩).1 = pm.get ⟨j, hj⟩ := by
      have h := congrArg (fun l => l[j]?) hPfeq
      simp only [List.getElem?_map] at h
      rw [List.getElem?_eq_getElem hjF, List.getElem?_eq_getElem hj] at h
      simp only [Option.map_some'] at h
      simpa [List.get_eq_getElem] using Option.some.inj h
    rw [hfst] at hG
    exact hG

/-- finalize_bins-level corollary of the alignment lemma: with or without the
interior removal step, the j-th point-mass label carries the j-th point mass's
format. -/
theorem finalize_bins_pm_get (sig : ℤ) (cf1 : List ℚ) (cf2 : List String)
    (pm : List ℚ) (pmf : List String)
    (h1 : List.Forall₂ (fun a b => human_readable_num a sig = .ok b) cf1 cf2)
    (h2 : List.Forall₂ (fun a b => human_readable_num a sig = .ok b) pm pmf)
    (hpm : pm.Pairwise (· < ·)) :
    ∀ j, (hj : j < pm.length) → ∃ k f,
      ((finalize_bins cf1 cf2 pm pmf).2.2).get? j = some (mkLabel k f) ∧
      human_readable_num (pm.get ⟨j, hj⟩) sig = .ok f := by
  intro j hj
  unfold finalize_bins
  dsimp only []
  by_cases h2c : 2 < cf1.length
  · rw [if_pos h2c]
    exact pairs_pm_alignment sig _ _ pm pmf
      (forall₂_delIdxs _ h1) h2 hpm j hj
  · rw [if_neg h2c]
    exact pairs_pm_alignment sig cf1 cf2 pm pmf h1 h2 hpm j hj

theorem point_mass_sorted (x : List ℚ) (thr : ℚ) :
    (point_mass x thr).Pairwise (· < ·) :=
  (npUnique_sorted x).filter _

theorem point_mass_mem_iff {v : ℚ} {x : List ℚ} {thr : ℚ} :
    v ∈ point_mass x thr ↔ v ∈ x ∧ thr < (x.count v : ℚ) / (x.length : ℚ) := by
  unfold point_mass
  rw [List.mem_filter, npUnique_mem]
  simp

/-- The common tail of cutter after the cutpoint/format pair cf is fixed:
formatting the point masses, binning the rows, and the duplicate-label guard.
A point mass v always receives its own numbered label carrying its own
format, present exactly once among the categories. -/
theorem cutter_tail (xs : List ℚ) (thr : ℚ) (sig : ℤ) (v : ℚ)
    (Y1 : List ℚ) (Y2 : List String)
    (rows : List (Option String)) (cats : List String)
    (hGcf : List.mapM (fun i => human_readable_num i sig) Y1 = .ok Y2)
    (hpm : v ∈ point_mass xs thr)
    (hok : (List.mapM (fun i => human_readable_num i sig) (point_mass xs thr)).bind
      (fun pm_format =>
      (List.mapM (fun w =>
        if w ∈ point_mass xs thr then
          match (finalize_bins Y1 Y2 (point_mass xs thr) pm_format).2.2.get?
              (List.indexOf w (point_mass xs thr)) with
          | some l => pure (some l)
          | none => Except.error PyErr.indexError
        else pure (pdCut w (finalize_bins Y1 Y2 (point_mass xs thr) pm_format).1
            (finalize_bins Y1 Y2 (point_mass xs thr) pm_format).2.1)) xs).bind
        (fun rows2 =>
          if ((finalize_bins Y1 Y2 (point_mass xs thr) pm_format).2.1 ++
              (finalize_bins Y1 Y2 (point_mass xs thr) pm_format).2.2).Nodup then
            Except.ok (rows2, sortStrs
              ((finalize_bins Y1 Y2 (point_mass xs thr) pm_format).2.1 ++
               (finalize_bins Y1 Y2 (point_mass xs thr) pm_format).2.2))
          else Except.error PyErr.valueError)) = .ok (rows, cats)) :
    ∃ k f, human_readable_num v sig = .ok f ∧
      (∀ i, (h : i < xs.length) → xs.get ⟨i, h⟩ = v →
        rows[i]? = some (some (mkLabel k f))) ∧
      mkLabel k f ∈ cats ∧ cats.count (mkLabel k f) = 1 := by
  cases hpmf : List.mapM (fun i => human_readable_num i sig) (point_mass xs thr) with
  | error e =>
    rw [hpmf] at hok
    simp only [Except.bind] at hok
    cases hok
  | ok pm_format =>
    rw [hpmf] at hok
    simp only [Except.bind] at hok
    cases hrows : List.mapM (fun w =>
        if w ∈ point_mass xs thr then
          match (finalize_bins Y1 Y2 (point_mass xs thr) pm_format).2.2.get?
              (List.indexOf w (point_mass xs thr)) with
          | some l => pure (some l)
          | none => Except.error PyErr.indexError
        else pure (pdCut w (finalize_bins Y1 Y2 (point_mass xs thr) pm_format).1
            (finalize_bins Y1 Y2 (point_mass xs thr) pm_format).2.1)) xs with
    | error e =>
      rw [hrows] at hok
      simp only [Except.bind] at hok
      cases hok
    | ok rows2 =>
      rw [hrows] at hok
      simp only [Except.bind] at hok
      split at hok
      case isFalse => cases hok
      case isTrue hnd =>
      have hpair := Except.ok.inj hok
      have hrows_eq : rows = rows2 := congrArg Prod.fst hpair.symm
      have hcats_eq : cats = sortStrs
          ((finalize_bins Y1 Y2 (point_mass xs thr) pm_format).2.1 ++
           (finalize_bins Y1 Y2 (point_mass xs thr) pm_format).2.2) :=
        congrArg Prod.snd hpair.symm
      have hidx : List.indexOf v (point_mass xs thr) < (point_mass xs thr).length :=
        List.indexOf_lt_length.mpr hpm
      obtain ⟨k, f, hget, hGf⟩ := finalize_bins_pm_get sig Y1 Y2
        (point_mass xs thr) pm_format (exceptMapM_ok_forall₂ hGcf)
        (exceptMapM_ok_forall₂ hpmf)
        (point_mass_sorted xs thr) (List.indexOf v (point_mass xs thr)) hidx
      have hpmv : (point_mass xs thr).get ⟨List.indexOf v (point_mass xs thr), hidx⟩ = v := by
        simp [List.get_eq_getElem]
      rw [hpmv] at hGf
      refine ⟨k, f, hGf, ?_, ?_, ?_⟩
      · intro i h hxi
        have hF2 := exceptMapM_ok_forall₂ hrows
        have hlen := hF2.length_eq
        have hpos := (List.forall₂_iff_get.mp hF2).2 i h (by omega)
        rw [hxi] at hpos
        rw [if_pos hpm, hget] at hpos
        have hval : rows2.get ⟨i, by omega⟩ = some (mkLabel k f) :=
          (Except.ok.inj hpos).symm
        rw [hrows_eq, List.getElem?_eq_getElem (by omega)]
        rw [List.get_eq_getElem] at hval
        rw [hval]
      · rw [hcats_eq]
        refine (sortStrs_perm _).mem_iff.mpr (List.mem_append.mpr (Or.inr ?_))
        exact List.get?_mem hget
      · rw [hcats_eq]
        have hnd2 : (sortStrs
            ((finalize_bins Y1 Y2 (point_mass xs thr) pm_format).2.1 ++
             (finalize_bins Y1 Y2 (point_mass xs thr) pm_format).2.2)).Nodup :=
          (sortStrs_perm _).nodup_iff.mpr hnd
        refine List.count_eq_one_of_mem hnd2 ?_
        refine (sortStrs_perm _).mem_iff.mpr (List.mem_append.mpr (Or.inr ?_))
        exact List.get?_mem hget

/-! ### Claim theorems -/

/-- Claim C1, counterexample: with strategy log and a strictly negative lower working
endpoint (here the 2.5 percent quantile of the sample, -19/20), the histograms
generator numericVarCutpoints returns normally instead of failing with the
invalid-range error, so the claim that generation fails whenever a working
endpoint is at most zero is false for that module. -/
theorem C1_counterexample :
    epOf [-1, 1] (some (1/40, 39/40)) (floorSig 3 (listMin [-1, 1]))
        (ceilSig 3 (listMax [-1, 1])) = .ok (-19/20, 19/20) ∧
    (-19/20 : ℚ) ≤ 0 ∧
    numericVarCutpoints ⟨fun _ => 0, fun _ => 0⟩ [-1, 1] (some (1/40, 39/40)) .log 10 3
      = .ok ([-1, 0, 1], ["-1.00", "0", "1.00"]) :=
  ⟨by with_unfolding_all rfl, by norm_num, by with_unfolding_all rfl⟩

/-- Claim C1, amended: with strategy log, binners.cutpoints fails with the
invalid-range error exactly when the lower working endpoint is at most zero,
while histograms.numericVarCutpoints fails exactly when a working endpoint
equals zero; with any other strategy neither generator raises that error. -/
theorem C1_amended (fns : RealFns) (x : List ℚ) (qntl : Option (ℚ × ℚ)) (ncuts sig : ℤ)
    (ep : ℚ × ℚ) (hx : x ≠ [])
    (hep : epOf x qntl (floorSig sig (listMin x)) (ceilSig sig (listMax x)) = .ok ep) :
    (numericVarCutpoints fns x qntl .log ncuts sig = .error .invalidRange ↔
      (ep.1 = 0 ∨ ep.2 = 0)) ∧
    (cutpoints fns x qntl .log ncuts sig = .error .invalidRange ↔ ep.1 ≤ 0) ∧
    (∀ cuts, cuts ≠ .log →
      numericVarCutpoints fns x qntl cuts ncuts sig ≠ .error .invalidRange ∧
      cutpoints fns x qntl cuts ncuts sig ≠ .error .invalidRange) := by
  refine ⟨?_, ?_, ?_⟩
  · have h := numericVarCutpoints_invalidRange_iff fns ncuts hx hep Cuts.log
    simpa using h
  · have h := cutpoints_invalidRange_iff fns ncuts hx hep Cuts.log
    simpa using h
  · intro cuts hc
    constructor
    · intro h
      exact hc ((numericVarCutpoints_invalidRange_iff fns ncuts hx hep cuts).mp h).1
    · intro h
      exact hc ((cutpoints_invalidRange_iff fns ncuts hx hep cuts).mp h).1

/-- Claim C1, witness: the amended characterisation applied to the sample [1, 2]
with no quantile window, whose working endpoints are (1, 2): neither generator
raises the invalid-range error under log, nor under the other strategies. -/
theorem C1_amended_witness :
    (numericVarCutpoints ⟨fun _ => 0, fun _ => 0⟩ [1, 2] none .log 10 3
        = .error .invalidRange ↔ ((1 : ℚ) = 0 ∨ (2 : ℚ) = 0)) ∧
    (cutpoints ⟨fun _ => 0, fun _ => 0⟩ [1, 2] none .log 10 3
        = .error .invalidRange ↔ (1 : ℚ) ≤ 0) ∧
    (∀ cuts, cuts ≠ .log →
      numericVarCutpoints ⟨fun _ => 0, fun _ => 0⟩ [1, 2] none cuts 10 3
        ≠ .error .invalidRange ∧
      cutpoints ⟨fun _ => 0, fun _ => 0⟩ [1, 2] none cuts 10 3 ≠ .error .invalidRange) :=
  C1_amended ⟨fun _ => 0, fun _ => 0⟩ [1, 2] none 10 3 (1, 2) (by simp)
    (by with_unfolding_all rfl)

/-- Claim C2, counterexample: on the constant sample [5] (any strategy; shown for
linear with the default quantile window) generation returns normally with a
single cutpoint, so the returned sequence does not have length at least 2. -/
theorem C2_counterexample :
    numericVarCutpoints ⟨fun _ => 0, fun _ => 0⟩ [5] (some (1/40, 39/40)) .linear 10 3
      = .ok ([5], ["5.00"]) ∧
    ¬(2 ≤ ([(5 : ℚ)] : List ℚ).length) :=
  ⟨by with_unfolding_all rfl, by simp⟩

/-- Claim C2, amended: whenever either generator returns normally the cutpoint
sequence is strictly increasing and non-empty, and it has length at least 2
whenever the sample contains two distinct values (sigFig at least 1, the spec's
domain); a constant sample can collapse to a single cutpoint. -/
theorem C2_amended (fns : RealFns) (x : List ℚ) (qntl : Option (ℚ × ℚ)) (cuts : Cuts)
    (ncuts : ℤ) {sig : ℤ} (hs : 1 ≤ sig) :
    (∀ cf fmts, numericVarCutpoints fns x qntl cuts ncuts sig = .ok (cf, fmts) →
      cf.Sorted (· < ·) ∧ 1 ≤ cf.length ∧ (listMin x ≠ listMax x → 2 ≤ cf.length)) ∧
    (∀ cf, cutpoints fns x qntl cuts ncuts sig = .ok cf →
      cf.Sorted (· < ·) ∧ 1 ≤ cf.length ∧ (listMin x ≠ listMax x → 2 ≤ cf.length)) := by
  have core : ∀ (c : List ℚ), x ≠ [] →
      (finalizeCuts sig (floorSig sig (listMin x)) (ceilSig sig (listMax x)) c).Sorted (· < ·) ∧
      1 ≤ (finalizeCuts sig (floorSig sig (listMin x)) (ceilSig sig (listMax x)) c).length ∧
      (listMin x ≠ listMax x →
        2 ≤ (finalizeCuts sig (floorSig sig (listMin x)) (ceilSig sig (listMax x)) c).length) := by
    intro c hx
    refine ⟨finalizeCuts_sorted _ _ _ _, ?_, ?_⟩
    · have hmem : roundSig sig (floorSig sig (listMin x)) ∈
          finalizeCuts sig (floorSig sig (listMin x)) (ceilSig sig (listMax x)) c :=
        finalizeCuts_mem.mpr ⟨floorSig sig (listMin x), Or.inl rfl, rfl⟩
      have := List.length_pos.mpr (List.ne_nil_of_mem hmem)
      omega
    · intro hne
      have hlt : listMin x < listMax x :=
        lt_of_le_of_ne (listMin_le_listMax hx) hne
      have hlb : floorSig sig (listMin x) ≤ listMin x := floorSig_le _ _
      have hub : listMax x ≤ ceilSig sig (listMax x) := le_ceilSig _ _
      have hne2 : floorSig sig (listMin x) ≠ ceilSig sig (listMax x) := by
        intro heq
        rw [heq] at hlb
        linarith
      have hm1 : floorSig sig (listMin x) ∈
          finalizeCuts sig (floorSig sig (listMin x)) (ceilSig sig (listMax x)) c :=
        finalizeCuts_mem.mpr ⟨_, Or.inl rfl, floorSig_fixed hs _⟩
      have hm2 : ceilSig sig (listMax x) ∈
          finalizeCuts sig (floorSig sig (listMin x)) (ceilSig sig (listMax x)) c :=
        finalizeCuts_mem.mpr ⟨_, Or.inr (Or.inr rfl), ceilSig_fixed hs _⟩
      exact two_mem_length hm1 hm2 hne2
  constructor
  · intro cf fmts h
    obtain ⟨hx, ep, c, -, -, hcf⟩ := numericVarCutpoints_ok_elim h
    rw [hcf]
    exact core c hx
  · intro cf h
    obtain ⟨hx, ep, c, -, -, hcf⟩ := cutpoints_ok_elim h
    rw [hcf]
    exact core c hx

/-- Claim C2, witness: the amended theorem applied to the two-valued sample
[1, 2] without a quantile window: both generators return strictly increasing
sequences of length at least 2. -/
theorem C2_amended_witness :
    ([1, 133/100, 167/100, 2] : List ℚ).Sorted (· < ·) ∧
    2 ≤ ([1, 133/100, 167/100, 2] : List ℚ).length := by
  have h := ((C2_amended ⟨fun _ => 0, fun _ => 0⟩ [1, 2] none .linear 4
      (show (1:ℤ) ≤ 3 by norm_num)).1
    [1, 133/100, 167/100, 2] ["1.00", "1.33", "1.67", "2.00"] (by with_unfolding_all rfl))
  exact ⟨h.1, h.2.2 (by norm_num [listMin, listMax])⟩

/-- Claim C3 (confirmed): with strategy linear, whenever either generator
returns normally the first cutpoint is the sample minimum rounded down at the
requested significant figures and the last is the sample maximum rounded up, so
the first is at most and the last is at least every sample value (exactly, not
merely up to tolerance). -/
theorem C3_thm (fns : RealFns) (x : List ℚ) (qntl : Option (ℚ × ℚ)) (ncuts : ℤ)
    {sig : ℤ} (hs : 1 ≤ sig) :
    (∀ cf fmts, numericVarCutpoints fns x qntl .linear ncuts sig = .ok (cf, fmts) →
      cf.head? = some (floorSig sig (listMin x)) ∧
      cf.getLast? = some (ceilSig sig (listMax x)) ∧
      ∀ v ∈ x, floorSig sig (listMin x) ≤ v ∧ v ≤ ceilSig sig (listMax x)) ∧
    (∀ cf, cutpoints fns x qntl .linear ncuts sig = .ok cf →
      cf.head? = some (floorSig sig (listMin x)) ∧
      cf.getLast? = some (ceilSig sig (listMax x)) ∧
      ∀ v ∈ x, floorSig sig (listMin x) ≤ v ∧ v ≤ ceilSig sig (listMax x)) := by
  have hlb : floorSig sig (listMin x) ≤ listMin x := floorSig_le _ _
  have hub : listMax x ≤ ceilSig sig (listMax x) := le_ceilSig _ _
  have hv : x ≠ [] → ∀ v ∈ x, floorSig sig (listMin x) ≤ v ∧ v ≤ ceilSig sig (listMax x) := by
    intro hx v hvx
    exact ⟨le_trans hlb (listMin_le_mem hvx), le_trans (listMax_ge_mem hvx) hub⟩
  constructor
  · intro cf fmts h
    obtain ⟨hx, ep, c, hep, hc, hcf⟩ := numericVarCutpoints_ok_elim h
    have hlu : floorSig sig (listMin x) ≤ ceilSig sig (listMax x) :=
      le_trans hlb (le_trans (listMin_le_listMax hx) hub)
    obtain ⟨h1, h2⟩ := epOf_bounds hlb hub hlu hep
    have hbnd := createCutsH_linear_bounds hc h1 h2
    obtain ⟨-, -, -, hhead, hlast⟩ :=
      finalizeCuts_props hs (floorSig_fixed hs _) (ceilSig_fixed hs _) hlu hbnd
    rw [hcf]
    exact ⟨hhead, hlast, hv hx⟩
  · intro cf h
    obtain ⟨hx, ep, c, hep, hc, hcf⟩ := cutpoints_ok_elim h
    have hlu : floorSig sig (listMin x) ≤ ceilSig sig (listMax x) :=
      le_trans hlb (le_trans (listMin_le_listMax hx) hub)
    obtain ⟨h1, h2⟩ := epOf_bounds hlb hub hlu hep
    have hbnd := createCutsB_linear_bounds hc h1 h2
    obtain ⟨-, -, -, hhead, hlast⟩ :=
      finalizeCuts_props hs (floorSig_fixed hs _) (ceilSig_fixed hs _) hlu hbnd
    rw [hcf]
    exact ⟨hhead, hlast, hv hx⟩

/-- Claim C3, witness: the theorem applied to the sample [1, 2, 3] without a
quantile window; the generated cutpoints are [1, 1.67, 2.33, 3] with the
rounded minimum first and the rounded maximum last. -/
theorem C3_witness :
    numericVarCutpoints ⟨fun _ => 0, fun _ => 0⟩ [1, 2, 3] none .linear 4 3
      = .ok ([1, 167/100, 233/100, 3], ["1.00", "1.67", "2.33", "3.00"]) ∧
    ([1, 167/100, 233/100, 3] : List ℚ).head? = some (floorSig 3 (listMin [1, 2, 3])) ∧
    ([1, 167/100, 233/100, 3] : List ℚ).getLast? = some (ceilSig 3 (listMax [1, 2, 3])) ∧
    ∀ v ∈ ([1, 2, 3] : List ℚ),
      floorSig 3 (listMin [1, 2, 3]) ≤ v ∧ v ≤ ceilSig 3 (listMax [1, 2, 3]) := by
  have h := (C3_thm ⟨fun _ => 0, fun _ => 0⟩ [1, 2, 3] none 4
    (show (1:ℤ) ≤ 3 by norm_num)).1 [1, 167/100, 233/100, 3]
    ["1.00", "1.67", "2.33", "3.00"] (by with_unfolding_all rfl)
  exact ⟨by with_unfolding_all rfl, h.1, h.2.1, h.2.2⟩

/-- Claim C6 (confirmed): the formatter satisfies the three concrete
equalities, the zero case for every significant-figure setting. -/
theorem C6_thm :
    humanReadableNum 1234 3 = .ok "1.23K" ∧
    humanReadableNum (4567/1000000) 3 = .ok "4.57E-3" ∧
    ∀ s : ℤ, humanReadableNum 0 s = .ok "0" := by
  refine ⟨by with_unfolding_all rfl, by with_unfolding_all rfl, fun s => ?_⟩
  unfold humanReadableNum human_readable_num
  rw [if_pos rfl]

/-- Claim C8, counterexample: a malformed configuration with lower quantile
bound greater than the upper (0.9 > 0.1) raises nothing: generation returns
normally, so not every malformed configuration produces a configuration
error. -/
theorem C8_counterexample :
    (1 : ℚ)/10 < 9/10 ∧
    numericVarCutpoints ⟨fun _ => 0, fun _ => 0⟩ [1, 2, 3] (some (9/10, 1/10)) .linear 10 3
      = .ok ([1, 6/5, 69/50, 39/25, 173/100, 191/100, 209/100, 227/100, 61/25, 131/50, 14/5, 3],
        ["1.00", "1.20", "1.38", "1.56", "1.73", "1.91", "2.09", "2.27", "2.44", "2.62",
         "2.80", "3.00"]) :=
  ⟨by norm_num, by with_unfolding_all rfl⟩

/-- Claim C8, amended: quantile bounds outside the unit interval raise the
numpy quantile range error, propagated unmodified by both generators; but a
reversed window (low at least high) raises nothing, and with in-range bounds,
the linear strategy, the default significant figures and a non-negative level
count the computation always returns normally. -/
theorem C8_amended (fns : RealFns) (x : List ℚ) (lo hi : ℚ) (cuts : Cuts) (ncuts sig : ℤ) :
    (x ≠ [] → (lo < 0 ∨ 1 < lo ∨ hi < 0 ∨ 1 < hi) →
      numericVarCutpoints fns x (some (lo, hi)) cuts ncuts sig = .error .quantileRange ∧
      cutpoints fns x (some (lo, hi)) cuts ncuts sig = .error .quantileRange) ∧
    (x ≠ [] → 0 ≤ lo → lo ≤ 1 → 0 ≤ hi → hi ≤ 1 → 0 ≤ ncuts →
      ∃ r, numericVarCutpoints fns x (some (lo, hi)) .linear ncuts 3 = .ok r) := by
  constructor
  · intro hx hbad
    exact generators_quantileRange hx hbad
  · intro hx hlo0 hlo1 hhi0 hhi1 hn
    exact numericVarCutpoints_linear_ok hx hlo0 hlo1 hhi0 hhi1 hn

/-- Claim C8, witness: out-of-range bounds (2, 0.5) raise the quantile range
error on the sample [1, 2], and the reversed in-range window (0.9, 0.1) is
accepted. -/
theorem C8_witness :
    (numericVarCutpoints ⟨fun _ => 0, fun _ => 0⟩ [1, 2] (some (2, 1/2)) .linear 10 3
        = .error .quantileRange ∧
      cutpoints ⟨fun _ => 0, fun _ => 0⟩ [1, 2] (some (2, 1/2)) .linear 10 3
        = .error .quantileRange) ∧
    ∃ r, numericVarCutpoints ⟨fun _ => 0, fun _ => 0⟩ [1, 2] (some (9/10, 1/10)) .linear 10 3
      = .ok r := by
  have h := C8_amended ⟨fun _ => 0, fun _ => 0⟩ [1, 2] 2 (1/2) .linear 10 3
  have h2 := C8_amended ⟨fun _ => 0, fun _ => 0⟩ [1, 2] (9/10) (1/10) .linear 10 3
  exact ⟨h.1 (by simp) (by norm_num),
    h2.2 (by simp) (by norm_num) (by norm_num) (by norm_num) (by norm_num) (by norm_num)⟩

/-- Claim C9 (confirmed): for every argument combination, the DataFrame-level
wrappers histograms.binner and binners.binner_df never return normally, their
result does not depend on the fill_nan argument, and whenever the underlying
cutter succeeds they fail with precisely the unbound-name error on fill_na, so
the missing-fill option can never take effect. -/
theorem C9_thm (fns : RealFns) (xs : List ℚ) (fill : Option String) (ml : ℤ)
    (qntl : Option (ℚ × ℚ)) (cuts : Cuts) (ncuts sig : ℤ) (pmthr sigB : ℚ)
    (qntlB : Option (ℚ × ℚ)) (cutsB : Cuts) (sigB2 : ℤ) :
    (∀ r, binner fns xs fill ml qntl cuts ncuts sig ≠ .ok r) ∧
    (∀ fill2, binner fns xs fill ml qntl cuts ncuts sig
      = binner fns xs fill2 ml qntl cuts ncuts sig) ∧
    ((∃ y, cutterH fns xs ml qntl cuts ncuts sig = .ok y) →
      binner fns xs fill ml qntl cuts ncuts sig = .error (.nameError "fill_na")) ∧
    (∀ r, binner_df fns xs fill ml pmthr sigB2 qntlB cutsB ≠ .ok r) ∧
    (∀ fill2, binner_df fns xs fill ml pmthr sigB2 qntlB cutsB
      = binner_df fns xs fill2 ml pmthr sigB2 qntlB cutsB) ∧
    ((∃ y, cutter fns xs ml pmthr sigB2 qntlB cutsB = .ok y) →
      binner_df fns xs fill ml pmthr sigB2 qntlB cutsB = .error (.nameError "fill_na")) := by
  refine ⟨?_, fun _ => rfl, ?_, ?_, fun _ => rfl, ?_⟩
  · intro r h
    unfold binner at h
    cases hc : cutterH fns xs ml qntl cuts ncuts sig with
    | error e => rw [hc] at h; simp only [Bind.bind, Except.bind] at h; cases h
    | ok y => rw [hc] at h; simp only [Bind.bind, Except.bind] at h; cases h
  · rintro ⟨y, hy⟩
    unfold binner
    rw [hy]
    rfl
  · intro r h
    unfold binner_df at h
    cases hc : cutter fns xs ml pmthr sigB2 qntlB cutsB with
    | error e => rw [hc] at h; simp only [Bind.bind, Except.bind] at h; cases h
    | ok y => rw [hc] at h; simp only [Bind.bind, Except.bind] at h; cases h
  · rintro ⟨y, hy⟩
    unfold binner_df
    rw [hy]
    rfl

/-- Claim C9, witness: on the sample [1, 2] with default-style arguments both
wrappers raise the unbound-name error, applying the theorem with the successful
cutter runs discharged by evaluation. -/
theorem C9_witness :
    binner ⟨fun _ => 0, fun _ => 0⟩ [1, 2] none 20 none .linear 10 3
      = .error (.nameError "fill_na") ∧
    binner_df ⟨fun _ => 0, fun _ => 0⟩ [1, 2] none 20 0 3 none .linear
      = .error (.nameError "fill_na") := by
  have h := C9_thm ⟨fun _ => 0, fun _ => 0⟩ [1, 2] none 20 none .linear 10 3 0 0 none .linear 3
  refine ⟨h.2.2.1 ?_, h.2.2.2.2.2 ?_⟩
  · exact ⟨[some "01: 1.00 - 1.11", some "09: 1.89 - 2.00"], by with_unfolding_all rfl⟩
  · refine ⟨([some "01: 1.00", some "03: 2.00"],
      ["01: 1.00", "02: 1.00 - 2.00", "03: 2.00"]), ?_⟩
    with_unfolding_all rfl

/-- Claim C10 (confirmed): histograms.cutter never reads its max_levels
parameter, so two calls differing only in max_levels produce identical binned
output; the interior cut count comes only from the forwarded kwargs (ncuts,
default 10 in numericVarCutpoints). -/
theorem C10_thm (fns : RealFns) (xs : List ℚ) (ml1 ml2 : ℤ) (qntl : Option (ℚ × ℚ))
    (cuts : Cuts) (ncuts sig : ℤ) :
    cutterH fns xs ml1 qntl cuts ncuts sig = cutterH fns xs ml2 qntl cuts ncuts sig := rfl

/-- C7: counterexample. With sigFig = 4 the value 5 has mantissa 5 (below 10)
yet formats with three decimal places, not the claimed two: the decimal counts
are sigFig-relative, not the fixed 2/1/0 of the claim. -/
theorem C7_counterexample :
    human_readable_num 5 4 = .ok "5.000" ∧
    |(5 : ℚ) / 1000 ^ mag1000 5| < 10 ∧
    decimalsOf "5.000" ≠ 2 := by
  have hm : mag1000 5 = 0 := by with_unfolding_all rfl
  refine ⟨by with_unfolding_all rfl, ?_, by with_unfolding_all decide⟩
  rw [hm]
  norm_num

/-- C7: amended. For |q| >= 1, whenever the formatter returns a string, the
number of decimal places is sigFig-1 when the base-1000 mantissa has absolute
value below 10, sigFig-2 when below 100, and sigFig-3 otherwise (the claim's
2/1/0 is the special case sigFig = 3). -/
theorem C7_amended (q : ℚ) (s : ℤ) (str : String) (h1 : 1 ≤ |q|)
    (hok : human_readable_num q s = .ok str) :
    (|q / 1000 ^ mag1000 q| < 10 → (decimalsOf str : ℤ) = s - 1) ∧
    (10 ≤ |q / 1000 ^ mag1000 q| → |q / 1000 ^ mag1000 q| < 100 →
      (decimalsOf str : ℤ) = s - 2) ∧
    (100 ≤ |q / 1000 ^ mag1000 q| → (decimalsOf str : ℤ) = s - 3) := by
  have hq0 : q ≠ 0 := by
    intro h
    rw [h] at h1
    simp at h1
    linarith
  have hlt : ¬ |q| < 1 := not_lt.mpr h1
  unfold human_readable_num at hok
  rw [if_neg hq0, if_neg hlt] at hok
  dsimp only [] at hok
  simp only [Bind.bind] at hok
  split_ifs at hok with h10 h5a h100 h5b h5c
  · have hd := decimalsOf_branch (unit_ok (Or.inl ⟨3 * mag1000 q, rfl⟩)) hok
    exact ⟨fun _ => hd.2, fun hge _ => absurd h10 (not_lt.mpr hge),
      fun hge => absurd h10 (not_lt.mpr (by linarith))⟩
  · have hd := decimalsOf_branch (unit_ok (Or.inr ⟨(mag1000 q).toNat, rfl⟩)) hok
    exact ⟨fun _ => hd.2, fun hge _ => absurd h10 (not_lt.mpr hge),
      fun hge => absurd h10 (not_lt.mpr (by linarith))⟩
  · have hd := decimalsOf_branch (unit_ok (Or.inl ⟨3 * mag1000 q, rfl⟩)) hok
    exact ⟨fun hl => absurd hl h10, fun _ _ => hd.2,
      fun hge => absurd h100 (not_lt.mpr hge)⟩
  · have hd := decimalsOf_branch (unit_ok (Or.inr ⟨(mag1000 q).toNat, rfl⟩)) hok
    exact ⟨fun hl => absurd hl h10, fun _ _ => hd.2,
      fun hge => absurd h100 (not_lt.mpr hge)⟩
  · have hd := decimalsOf_branch (unit_ok (Or.inl ⟨3 * mag1000 q, rfl⟩)) hok
    exact ⟨fun hl => absurd hl h10, fun _ hl => absurd hl h100, fun _ => hd.2⟩
  · have hd := decimalsOf_branch (unit_ok (Or.inr ⟨(mag1000 q).toNat, rfl⟩)) hok
    exact ⟨fun hl => absurd hl h10, fun _ hl => absurd hl h100, fun _ => hd.2⟩

/-- Witness for C7_amended at q = 1234, sigFig = 3: the output 1.23K carries
3 - 1 = 2 decimals. -/
theorem C7_witness :
    (1 : ℚ) ≤ |(1234 : ℚ)| ∧
    ((|(1234 : ℚ) / 1000 ^ mag1000 1234| < 10 → (decimalsOf "1.23K" : ℤ) = 3 - 1) ∧
    (10 ≤ |(1234 : ℚ) / 1000 ^ mag1000 1234| → |(1234 : ℚ) / 1000 ^ mag1000 1234| < 100 →
      (decimalsOf "1.23K" : ℤ) = 3 - 2) ∧
    (100 ≤ |(1234 : ℚ) / 1000 ^ mag1000 1234| → (decimalsOf "1.23K" : ℤ) = 3 - 3)) :=
  ⟨by norm_num, C7_amended 1234 3 "1.23K" (by norm_num) (by with_unfolding_all rfl)⟩

/-- C5: counterexample. With cutpoints [0,5,10,20] and point mass 5, the
marked removal index is 1 and cps[1] = 5 is deleted, yet 5 re-enters the
merged boundary list through the point-mass append, so the nearest-interior
cutpoint of the point mass is not absent from the final boundary list. -/
theorem C5_counterexample :
    removalIdxs [0, 5, 10, 20] [5] = [1] ∧
    ([0, 5, 10, 20] : List ℚ)[1]? = some 5 ∧
    (finalize_bins [0, 5, 10, 20] ["0", "5.00", "10.0", "20.0"] [5] ["5.00"]).1
      = [0, 5, 10, 20] ∧
    (5 : ℚ) ∈ (finalize_bins [0, 5, 10, 20] ["0", "5.00", "10.0", "20.0"] [5] ["5.00"]).1 := by
  have hfin : (finalize_bins [0, 5, 10, 20] ["0", "5.00", "10.0", "20.0"] [5] ["5.00"]).1
      = [0, 5, 10, 20] := by
    with_unfolding_all rfl
  refine ⟨by with_unfolding_all rfl, by with_unfolding_all rfl, hfin, ?_⟩
  rw [hfin]
  simp

/-- C5: amended. When there are more than two cutpoints (and the format lists
are aligned), the merged boundary list of _finalize_bins contains w exactly
when w sits at some unmarked cutpoint position (the marked positions being the
deduplicated nearest-interior indices of the point masses, deleted in
descending order without index shifting) or w is itself a point mass; a
deleted value therefore vanishes only if it is no point mass and occupies no
other unmarked position. -/
theorem C5_amended (cps : List ℚ) (cps_format : List String) (pm : List ℚ) (pm_format : List String)
    (hl1 : cps_format.length = cps.length) (hl2 : pm_format.length = pm.length)
    (h2 : 2 < cps.length) (w : ℚ) :
    w ∈ (finalize_bins cps cps_format pm pm_format).1 ↔
      ((∃ j : ℕ, cps[j]? = some w ∧ j ∉ removalIdxs cps pm) ∨ w ∈ pm) := by
  have hnd : (removalIdxs cps pm).Nodup := List.nodup_dedup _
  have hstrict := sortDesc_strict hnd
  unfold finalize_bins
  dsimp only []
  rw [if_pos h2]
  dsimp only []
  constructor
  · intro hw
    rcases List.mem_map.mp hw with ⟨pr, hpr, hfst⟩
    have hz : pr ∈ (delIdxs cps (sortDesc (removalIdxs cps pm)) ++ pm).zip
        (delIdxs cps_format (sortDesc (removalIdxs cps pm)) ++ pm_format) :=
      List.mem_dedup.mp ((sortPairs_perm _).mem_iff.mp hpr)
    have hw2 : w ∈ delIdxs cps (sortDesc (removalIdxs cps pm)) ++ pm := by
      have := List.of_mem_zip hz
      exact hfst ▸ this.1
    rcases List.mem_append.mp hw2 with hw2 | hw2
    · left
      rcases (delIdxs_mem_iff _ cps hstrict w).mp hw2 with ⟨j, hj, hnr⟩
      exact ⟨j, hj, fun hmem => hnr ((sortDesc_perm _).mem_iff.mpr hmem)⟩
    · exact Or.inr hw2
  · intro hw
    have hw2 : w ∈ delIdxs cps (sortDesc (removalIdxs cps pm)) ++ pm := by
      rcases hw with ⟨j, hj, hnr⟩ | hw
      · refine List.mem_append.mpr (Or.inl ?_)
        exact (delIdxs_mem_iff _ cps hstrict w).mpr
          ⟨j, hj, fun hmem => hnr ((sortDesc_perm _).mem_iff.mp hmem)⟩
      · exact List.mem_append.mpr (Or.inr hw)
    have hlen2 : (delIdxs cps (sortDesc (removalIdxs cps pm)) ++ pm).length
        ≤ (delIdxs cps_format (sortDesc (removalIdxs cps pm)) ++ pm_format).length := by
      simp only [List.length_append]
      rw [delIdxs_length_eq _ cps cps_format hl1.symm, hl2]
    rw [← List.map_fst_zip _ _ hlen2] at hw2
    rcases List.mem_map.mp hw2 with ⟨pr, hpr, hfst⟩
    exact List.mem_map.mpr
      ⟨pr, (sortPairs_perm _).mem_iff.mpr (List.mem_dedup.mpr hpr), hfst⟩

/-- Witness for C5_amended on cutpoints [1,2,3,4] with point mass 2 and w = 3. -/
theorem C5_witness :
    (["1", "2", "3", "4"] : List String).length = ([1, 2, 3, 4] : List ℚ).length ∧
    (["2"] : List String).length = ([2] : List ℚ).length ∧
    2 < ([1, 2, 3, 4] : List ℚ).length ∧
    ((3 : ℚ) ∈ (finalize_bins [1, 2, 3, 4] ["1", "2", "3", "4"] [2] ["2"]).1 ↔
      ((∃ j : ℕ, ([1, 2, 3, 4] : List ℚ)[j]? = some 3 ∧ j ∉ removalIdxs [1, 2, 3, 4] [2]) ∨
        (3 : ℚ) ∈ ([2] : List ℚ))) :=
  ⟨rfl, rfl, by norm_num,
    C5_amended [1, 2, 3, 4] ["1", "2", "3", "4"] [2] ["2"] rfl rfl (by norm_num) 3⟩

/-- C4: amended. If v occurs with relative frequency above the threshold and
cutter returns, then v is detected as a point mass and every row holding v is
assigned one fixed numbered singleton label whose content is exactly v's own
formatted value; that label appears exactly once among the categories.  (The
claim's second half - that no pair of adjacent range bins can flank v - does
not hold; see the counterexample.) -/
theorem C4_amended (fns : RealFns) (xs : List ℚ) (ml : ℤ) (thr : ℚ) (sig : ℤ)
    (qntl : Option (ℚ × ℚ)) (cuts : Cuts) (v : ℚ)
    (rows : List (Option String)) (cats : List String)
    (hok : cutter fns xs ml thr sig qntl cuts = .ok (rows, cats))
    (hv : v ∈ xs) (hfreq : thr < (xs.count v : ℚ) / (xs.length : ℚ)) :
    v ∈ point_mass xs thr ∧
    ∃ k f, human_readable_num v sig = .ok f ∧
      (∀ i, (h : i < xs.length) → xs.get ⟨i, h⟩ = v →
        rows[i]? = some (some (mkLabel k f))) ∧
      mkLabel k f ∈ cats ∧ cats.count (mkLabel k f) = 1 := by
  have hpm : v ∈ point_mass xs thr := point_mass_mem_iff.mpr ⟨hv, hfreq⟩
  refine ⟨hpm, ?_⟩
  have hpm_ne : point_mass xs thr ≠ [] := List.ne_nil_of_mem hpm
  unfold cutter at hok
  simp only [Bind.bind] at hok
  rw [if_neg hpm_ne] at hok
  by_cases hrem : List.filter (fun w => decide (w ∉ point_mass xs thr)) xs = []
  · rw [if_pos hrem] at hok
    simp only [pure, Except.pure, Except.bind] at hok
    exact cutter_tail xs thr sig v [] [] rows cats rfl hpm hok
  · rw [if_neg hrem] at hok
    cases hcps : cutpoints fns (List.filter (fun w => decide (w ∉ point_mass xs thr)) xs)
        qntl cuts ml 3 with
    | error e =>
      rw [hcps] at hok
      simp only [Except.bind] at hok
      cases hok
    | ok cps =>
      rw [hcps] at hok
      simp only [Except.bind] at hok
      cases hf : List.mapM (fun i => human_readable_num i sig) cps with
      | error e =>
        rw [hf] at hok
        simp only [Except.bind] at hok
        cases hok
      | ok fs =>
        rw [hf] at hok
        simp only [pure, Except.pure, Except.bind] at hok
        exact cutter_tail xs thr sig v cps fs rows cats hf hpm hok

set_option maxRecDepth 8000 in
/-- C4: counterexample. The value 5 holds 4 of 14 records (freq 2/7 > 1/5) and
duly receives its own singleton bin 10: 5.00, but the emitted categories also
contain the adjacent range bins 09: 4.21 - 5.00 and 11: 5.00 - 5.26, which
have 5 as an open interior boundary adjacent on both sides, contradicting the
claim's prohibition. -/
theorem C4_counterexample :
    cutter ⟨fun _ => 0, fun _ => 0⟩ [0, 1, 2, 3, 4, 5, 5, 5, 5, 6, 7, 8, 9, 10]
        20 (1/5) 3 none .linear
      = .ok ([some "01: 0 - 0.526", some "02: 0.526 - 1.05", some "04: 1.58 - 2.11",
              some "06: 2.63 - 3.16", some "08: 3.68 - 4.21", some "10: 5.00",
              some "10: 5.00", some "10: 5.00", some "10: 5.00", some "13: 5.79 - 6.32",
              some "15: 6.84 - 7.37", some "17: 7.89 - 8.42", some "19: 8.95 - 9.47",
              some "20: 9.47 - 10.0"],
             ["01: 0 - 0.526", "02: 0.526 - 1.05", "03: 1.05 - 1.58", "04: 1.58 - 2.11",
              "05: 2.11 - 2.63", "06: 2.63 - 3.16", "07: 3.16 - 3.68", "08: 3.68 - 4.21",
              "09: 4.21 - 5.00", "10: 5.00", "11: 5.00 - 5.26", "12: 5.26 - 5.79",
              "13: 5.79 - 6.32", "14: 6.32 - 6.84", "15: 6.84 - 7.37", "16: 7.37 - 7.89",
              "17: 7.89 - 8.42", "18: 8.42 - 8.95", "19: 8.95 - 9.47", "20: 9.47 - 10.0"]) ∧
    (1/5 : ℚ) < (List.count 5 ([0, 1, 2, 3, 4, 5, 5, 5, 5, 6, 7, 8, 9, 10] : List ℚ) : ℚ)
      / (([0, 1, 2, 3, 4, 5, 5, 5, 5, 6, 7, 8, 9, 10] : List ℚ).length : ℚ) ∧
    "09: 4.21 - 5.00" ∈ ["01: 0 - 0.526", "02: 0.526 - 1.05", "03: 1.05 - 1.58",
      "04: 1.58 - 2.11", "05: 2.11 - 2.63", "06: 2.63 - 3.16", "07: 3.16 - 3.68",
      "08: 3.68 - 4.21", "09: 4.21 - 5.00", "10: 5.00", "11: 5.00 - 5.26", "12: 5.26 - 5.79",
      "13: 5.79 - 6.32", "14: 6.32 - 6.84", "15: 6.84 - 7.37", "16: 7.37 - 7.89",
      "17: 7.89 - 8.42", "18: 8.42 - 8.95", "19: 8.95 - 9.47", "20: 9.47 - 10.0"] ∧
    "11: 5.00 - 5.26" ∈ ["01: 0 - 0.526", "02: 0.526 - 1.05", "03: 1.05 - 1.58",
      "04: 1.58 - 2.11", "05: 2.11 - 2.63", "06: 2.63 - 3.16", "07: 3.16 - 3.68",
      "08: 3.68 - 4.21", "09: 4.21 - 5.00", "10: 5.00", "11: 5.00 - 5.26", "12: 5.26 - 5.79",
      "13: 5.79 - 6.32", "14: 6.32 - 6.84", "15: 6.84 - 7.37", "16: 7.37 - 7.89",
      "17: 7.89 - 8.42", "18: 8.42 - 8.95", "19: 8.95 - 9.47", "20: 9.47 - 10.0"] := by
  refine ⟨by with_unfolding_all rfl, ?_, by simp, by simp⟩
  have hc : List.count (5 : ℚ) [0, 1, 2, 3, 4, 5, 5, 5, 5, 6, 7, 8, 9, 10] = 4 := by
    with_unfolding_all rfl
  rw [hc]
  norm_num

/-- Witness for C4_amended on the sample [1,1,1,2,3] with threshold 3/10:
value 1 (frequency 3/5) gets the singleton label 01: 1.00 on its three rows. -/
theorem C4_witness :
    ((1 : ℚ) ∈ ([1, 1, 1, 2, 3] : List ℚ)) ∧
    ((3/10 : ℚ) < (List.count (1 : ℚ) [1, 1, 1, 2, 3] : ℚ)
      / (([1, 1, 1, 2, 3] : List ℚ).length : ℚ)) ∧
    ((1 : ℚ) ∈ point_mass [1, 1, 1, 2, 3] (3/10) ∧
      ∃ k f, human_readable_num 1 3 = .ok f ∧
        (∀ i, (h : i < ([1, 1, 1, 2, 3] : List ℚ).length) →
          ([1, 1, 1, 2, 3] : List ℚ).get ⟨i, h⟩ = 1 →
          ([some "01: 1.00", some "01: 1.00", some "01: 1.00", some "02: 1.00 - 2.00",
            some "04: 2.67 - 3.00"] : List (Option String))[i]? = some (some (mkLabel k f))) ∧
        mkLabel k f ∈ ["01: 1.00", "02: 1.00 - 2.00", "03: 2.00 - 2.67", "04: 2.67 - 3.00"] ∧
        (["01: 1.00", "02: 1.00 - 2.00", "03: 2.00 - 2.67", "04: 2.67 - 3.00"] :
          List String).count (mkLabel k f) = 1) := by
  have hv : (1 : ℚ) ∈ ([1, 1, 1, 2, 3] : List ℚ) := by norm_num
  have hc : List.count (1 : ℚ) [1, 1, 1, 2, 3] = 3 := by with_unfolding_all rfl
  have hfreq : (3/10 : ℚ) < (List.count (1 : ℚ) [1, 1, 1, 2, 3] : ℚ)
      / (([1, 1, 1, 2, 3] : List ℚ).length : ℚ) := by
    rw [hc]
    norm_num
  exact ⟨hv, hfreq, C4_amended ⟨fun _ => 0, fun _ => 0⟩ [1, 1, 1, 2, 3] 4 (3/10) 3 none .linear 1
    _ _ (by with_unfolding_all rfl) hv hfreq⟩
